import Mathlib

/-!
Verification development for `zod_filter.py`, a small tool that decodes a
binary STL mesh, detects thin "male" clip parts by their wall thickness,
inflates the geometry around them, recomputes facet normals and re-encodes
the mesh.

Modelling conventions:
* Python floats are modelled as exact rationals (`ℚ`); float arithmetic is
  idealised as exact arithmetic.
* Byte streams are `List ℕ` (each entry one byte).  The IEEE-754 binary32
  fields of an STL record are decoded to their exact rational values and
  re-encoded with round-half-to-even, mirroring `struct.unpack`/`pack`.
* Python exceptions are modelled with `Except`/`Option`: `struct.error`
  raised by `unpack` becomes `DecodeError.structError`, and the
  `ZeroDivisionError` raised by float division by `0.0` becomes an error
  outcome of the normal computation.
* `math.sqrt` on a non-square rational has no exact rational value; the
  model reports this case as the separate outcome `notExact` (a model
  artefact: the real program would return an approximate float there).
-/

namespace ZodFilter

/-- Two raised to an integer power, as a rational number. -/
def pow2 (z : ℤ) : ℚ := (2 : ℚ) ^ z

/-- Round half to even (banker's rounding), as used by Python's `round`
and by IEEE-754 ties-to-even when packing a float. -/
def rhe (q : ℚ) : ℤ :=
  if q - ⌊q⌋ < 1/2 then ⌊q⌋
  else if 1/2 < q - ⌊q⌋ then ⌊q⌋ + 1
  else if Even ⌊q⌋ then ⌊q⌋ else ⌊q⌋ + 1

/-- Absolute value written with a comparison, as Python's `abs`. -/
def absQ (q : ℚ) : ℚ := if q < 0 then -q else q

/-- Magnitude of a binary32 number with exponent field `e` and mantissa
field `m`: subnormal `m * 2^-149` when `e = 0`, else `(2^23 + m) *
2^(e-150)`. -/
def f32mag (e m : ℕ) : ℚ :=
  if e = 0 then (m : ℚ) * pow2 (-149) else ((m : ℚ) + 2 ^ 23) * pow2 ((e : ℤ) - 150)

/-- Decode a 32-bit word as the exact rational value of the IEEE-754
binary32 number it represents (meaningful for finite patterns, i.e.
exponent field below 255). -/
def decodef32 (w : ℕ) : ℚ :=
  if w / 2 ^ 31 % 2 = 1 then -(f32mag (w / 2 ^ 23 % 2 ^ 8) (w % 2 ^ 23))
  else f32mag (w / 2 ^ 23 % 2 ^ 8) (w % 2 ^ 23)

/-- A 32-bit word is a finite binary32 pattern: in range and its exponent
field is not 255 (not an infinity and not a NaN). -/
def isFinite32 (w : ℕ) : Prop := w < 2 ^ 32 ∧ w / 2 ^ 23 % 2 ^ 8 ≠ 255

instance (w : ℕ) : Decidable (isFinite32 w) := by unfold isFinite32; infer_instance

/-- Assemble an encoded binary32 word from the sign summand `s`, the
index `i` (so the binade exponent is `i + 1`) and the rounded total
significand `mt`: a significand below `2^23` is a subnormal, one below
`2^24` a normal, and `2^24` carries into the next binade (overflowing to
`none` past the largest finite exponent). -/
def encWord (s i : ℕ) (mt : ℤ) : Option ℕ :=
  if mt < 2 ^ 23 then some (s + Int.toNat mt)
  else if mt < 2 ^ 24 then some (s + (i + 1) * 2 ^ 23 + Int.toNat (mt - 2 ^ 23))
  else if i + 2 ≤ 254 then some (s + (i + 2) * 2 ^ 23) else none

/-- Encode an exact rational value as the 32-bit word of the nearest
IEEE-754 binary32 number, rounding ties to even, as `struct.pack("f")`
does; `none` models the `OverflowError` raised when the rounded value
falls outside the finite binary32 range.  The search finds the least
`i < 254` with `absQ q < 2^(i+1-126)`, i.e. the binade of the value. -/
def encodef32 (q : ℚ) : Option ℕ :=
  if q = 0 then some 0
  else
    match (List.range 254).find? (fun (i : ℕ) => decide (absQ q < pow2 ((i : ℤ) - 125))) with
    | none => none
    | some i =>
      encWord (if q < 0 then 2 ^ 31 else 0) i (rhe (absQ q * pow2 (149 - (i : ℤ))))

/-- Canonical form of a finite binary32 word: the word that re-encoding its
value produces.  It differs from the original word only at negative zero,
which re-encodes as positive zero. -/
def canon32 (w : ℕ) : ℕ := if w % 2 ^ 31 = 0 then 0 else w

/-- Decode four little-endian bytes as an unsigned 32-bit integer. -/
def le32dec : List ℕ → ℕ
  | [b0, b1, b2, b3] => b0 + 256 * b1 + 65536 * b2 + 16777216 * b3
  | _ => 0

/-- Encode an unsigned 32-bit integer as four little-endian bytes. -/
def le32enc (n : ℕ) : List ℕ :=
  [n % 256, n / 256 % 256, n / 65536 % 256, n / 16777216 % 256]

/-- Encode an unsigned 16-bit integer as two little-endian bytes. -/
def le16enc (n : ℕ) : List ℕ := [n % 256, n / 256 % 256]

/-- Point in space (`Point` in the source: a 3-element coordinate list;
every point the program builds has exactly three coordinates). -/
structure Point where
  x : ℚ
  y : ℚ
  z : ℚ
deriving DecidableEq, Repr

/-- Coordinate access `coordinates[i]` for the three valid indices. -/
def Point.coord (p : Point) (i : ℕ) : ℚ :=
  match i with
  | 0 => p.x
  | 1 => p.y
  | 2 => p.z
  | _ => 0

/-- Write `coordinates[i] = v` for the three valid indices. -/
def Point.setCoord (p : Point) (i : ℕ) (v : ℚ) : Point :=
  match i with
  | 0 => { p with x := v }
  | 1 => { p with y := v }
  | 2 => { p with z := v }
  | _ => p

/-- Componentwise addition (`Point.__add__`). -/
instance : Add Point := ⟨fun p q => ⟨p.x + q.x, p.y + q.y, p.z + q.z⟩⟩

/-- Componentwise subtraction (`Point.__sub__`). -/
instance : Sub Point := ⟨fun p q => ⟨p.x - q.x, p.y - q.y, p.z - q.z⟩⟩

/-- Scalar multiplication (`Point.__mul__`). -/
def Point.scale (p : Point) (factor : ℚ) : Point :=
  ⟨p.x * factor, p.y * factor, p.z * factor⟩

/-- Scalar division (`Point.__truediv__`); Python raises
`ZeroDivisionError` when the divisor is `0.0`, modelled as `none`. -/
def Point.div? (p : Point) (factor : ℚ) : Option Point :=
  if factor = 0 then none else some ⟨p.x / factor, p.y / factor, p.z / factor⟩

/-- Dot product (`Point.scalar_product`). -/
def Point.scalar_product (p q : Point) : ℚ := p.x * q.x + p.y * q.y + p.z * q.z

/-- A detected spot: an anchor point together with the index of the free
dimension (the tuple `(Point, free_dimension)` built by `detect_parts`). -/
abbrev Spot := Point × ℕ

/-- The proximity test of `Point.inflate_parts`: on every axis other than
the spot's free dimension the distance to the anchor is at most 2.9. -/
def nearSpot (p a : Point) (free : ℕ) : Bool :=
  (free == 0 || decide (absQ (p.x - a.x) ≤ 29/10)) &&
  (free == 1 || decide (absQ (p.y - a.y) ≤ 29/10)) &&
  (free == 2 || decide (absQ (p.z - a.z) ≤ 29/10))

/-- The in-place update of `Point.inflate_parts` once a spot matched:
every coordinate except the free dimension becomes
`(coordinate - anchor) * factor + anchor`. -/
def inflatePoint (p a : Point) (free : ℕ) (factor : ℚ) : Point :=
  ⟨if free = 0 then p.x else (p.x - a.x) * factor + a.x,
   if free = 1 then p.y else (p.y - a.y) * factor + a.y,
   if free = 2 then p.z else (p.z - a.z) * factor + a.z⟩

/-- Model of `Point.inflate_parts`: the point tries the spots in order;
the first spot whose proximity test passes rescales the point and the
method returns `True`; with no matching spot the point is unchanged and
the method returns `False`.  The mutation is modelled by returning the
updated point alongside the boolean. -/
def Point.inflate_parts (p : Point) : List Spot → ℚ → Point × Bool
  | [], _ => (p, false)
  | s :: rest, factor =>
    if nearSpot p s.1 s.2 then (inflatePoint p s.1 s.2 factor, true)
    else p.inflate_parts rest factor

/-- Facet in an STL file: three ordered points (`Facet` in the source)
plus the `colored` flag chosen when saving. -/
structure Facet where
  p0 : Point
  p1 : Point
  p2 : Point
  colored : Bool
deriving DecidableEq, Repr

/-- Model of `Facet.inflate_parts`: inflate each of the three points and
set `colored` when any of them matched a spot. -/
def Facet.inflate_parts (f : Facet) (spots : List Spot) (factor : ℚ) : Facet :=
  ⟨(f.p0.inflate_parts spots factor).1,
   (f.p1.inflate_parts spots factor).1,
   (f.p2.inflate_parts spots factor).1,
   f.colored || ((f.p0.inflate_parts spots factor).2 ||
     (f.p1.inflate_parts spots factor).2 || (f.p2.inflate_parts spots factor).2)⟩

/-- Square root of a rational number, when it is exactly a rational:
`sqrtQ? q = some r` exactly when `0 ≤ r` and `r * r = q`. -/
def sqrtQ? (q : ℚ) : Option ℚ :=
  if ((Int.sqrt q.num : ℚ) / (Nat.sqrt q.den : ℚ)) * ((Int.sqrt q.num : ℚ) / (Nat.sqrt q.den : ℚ)) = q
  then some ((Int.sqrt q.num : ℚ) / (Nat.sqrt q.den : ℚ)) else none

/-- Outcome of the normal computation.  `zeroDivisionError` models the
Python exception raised when the cross product has length zero and the
final `normal / norm` divides by `0.0`; `notExact` is a model artefact
marking a norm whose square root is irrational (the real program returns
an approximate float there). -/
inductive NormalOutcome where
  | ok (n : Point)
  | zeroDivisionError
  | notExact
deriving DecidableEq, Repr

/-- The cross product computed inside `Facet.normal`: with `center` the
mean of the three vertices, `u1 = p0 - center` and `u2 = p1 - center`,
this is `u1 × u2` by the explicit 3-component formula of the source. -/
def Facet.normalCross (f : Facet) : Point :=
  match (Point.mk 0 0 0 + f.p0 + f.p1 + f.p2).div? 3 with
  | none => Point.mk 0 0 0
  | some center =>
    ⟨(f.p0 - center).y * (f.p1 - center).z - (f.p0 - center).z * (f.p1 - center).y,
     (f.p0 - center).z * (f.p1 - center).x - (f.p0 - center).x * (f.p1 - center).z,
     (f.p0 - center).x * (f.p1 - center).y - (f.p0 - center).y * (f.p1 - center).x⟩

/-- Model of `Facet.normal`: the cross product divided by its Euclidean
length.  A zero-length cross product makes the division raise
(`zeroDivisionError`); an irrational length is reported as `notExact`. -/
def Facet.normal (f : Facet) : NormalOutcome :=
  match sqrtQ? (f.normalCross.scalar_product f.normalCross) with
  | none => .notExact
  | some norm =>
    match f.normalCross.div? norm with
    | none => .zeroDivisionError
    | some r => .ok r

/-- Model of `binary_facet`: build a facet from the 12 unpacked float
fields of a record, keeping fields 3..11 (the three vertices, at byte
offsets 12..47) and starting with `colored = False` (the `Facet`
constructor). -/
def decodeRecord (c : List ℕ) : Facet :=
  ⟨⟨decodef32 (le32dec ((c.drop 12).take 4)),
    decodef32 (le32dec ((c.drop 16).take 4)),
    decodef32 (le32dec ((c.drop 20).take 4))⟩,
   ⟨decodef32 (le32dec ((c.drop 24).take 4)),
    decodef32 (le32dec ((c.drop 28).take 4)),
    decodef32 (le32dec ((c.drop 32).take 4))⟩,
   ⟨decodef32 (le32dec ((c.drop 36).take 4)),
    decodef32 (le32dec ((c.drop 40).take 4)),
    decodef32 (le32dec ((c.drop 44).take 4))⟩,
   false⟩

/-- STL mesh: an ordered list of facets. -/
structure Stl where
  facets : List Facet
deriving DecidableEq, Repr

/-- Model of `Stl.points`: every point of every facet, in facet order. -/
def Stl.pointsList (m : Stl) : List Point :=
  m.facets.flatMap fun f => [f.p0, f.p1, f.p2]

/-- Model of `Stl.inflate_parts`: inflate every facet. -/
def Stl.inflate_parts (m : Stl) (spots : List Spot) (factor : ℚ) : Stl :=
  ⟨m.facets.map fun f => f.inflate_parts spots factor⟩

/-- The discretized key of `detect_parts`: the scanning-axis coordinate
rounded to the nearest 1/20 (`round(c*20.0)/20.0`, half to even). -/
def pointKey (p : Point) (scanning : ℕ) : ℚ := (rhe (p.coord scanning * 20) : ℚ) / 20

/-- One step of the `limits` defaultdict of `detect_parts`: entries are
`(key, running min, running max)` in insertion order.  A fresh key starts
from `[inf, -inf]`, so its first update yields `(c, c)`; the model merges
creation and first update. -/
def updateLimits : List (ℚ × ℚ × ℚ) → ℚ → ℚ → List (ℚ × ℚ × ℚ)
  | [], key, c => [(key, c, c)]
  | (k, lo, hi) :: rest, key, c =>
    if k = key then (k, min c lo, max c hi) :: rest
    else (k, lo, hi) :: updateLimits rest key c

/-- The `limits` table of `detect_parts` after scanning all points for a
given (scanning, slicing) axis pair. -/
def detectLimits (pts : List Point) (scanning slicing : ℕ) : List (ℚ × ℚ × ℚ) :=
  pts.foldl (fun acc p => updateLimits acc (pointKey p scanning) (p.coord slicing)) []

/-- The free dimension of a scan: the first axis in 0,1,2 that is neither
the scanning nor the slicing axis
(`next(d for d in range(3) if d != scanning and d != slicing)`). -/
def freeDim (scanning slicing : ℕ) : ℕ :=
  ((([0, 1, 2] : List ℕ).find? fun d => d != scanning && d != slicing).getD 0)

/-- The six ordered axis pairs `permutations(range(3), r=2)` iterates
over, in `itertools` order. -/
def axisPairs : List (ℕ × ℕ) := [(0, 1), (0, 2), (1, 0), (1, 2), (2, 0), (2, 1)]

/-- The spots one (scanning, slicing) pair contributes: one spot for each
key whose thickness `max - min` lies in the closed band [2.29, 2.36]; the
anchor starts from `[0, 0, 0]`, takes the key on the scanning axis and
the midpoint of (min, max) on the slicing axis. -/
def spotsForPair (pts : List Point) (scanning slicing : ℕ) : List Spot :=
  (detectLimits pts scanning slicing).filterMap fun e =>
    if 229/100 ≤ e.2.2 - e.2.1 ∧ e.2.2 - e.2.1 ≤ 236/100 then
      some (((Point.mk 0 0 0).setCoord scanning e.1).setCoord slicing ((e.2.1 + e.2.2) / 2),
            freeDim scanning slicing)
    else none

/-- Model of `Stl.detect_parts`: the spots of all six ordered axis pairs,
in scan order. -/
def Stl.detect_parts (m : Stl) : List Spot :=
  axisPairs.flatMap fun pr => spotsForPair m.pointsList pr.1 pr.2

/-- Error raised while decoding a binary STL stream: `structError` models
the `struct.error` exception `struct.Struct.unpack` raises on a buffer of
the wrong length. -/
inductive DecodeError where
  | structError
deriving DecidableEq, Repr

/-- The facet-reading loop of `parse_binary_stl`: read `n` records of 50
bytes each; a record that cannot be read in full makes `unpack` raise. -/
def parseFacets : List ℕ → ℕ → Except DecodeError (List Facet)
  | _, 0 => .ok []
  | bs, n + 1 =>
    if (bs.take 50).length < 50 then .error .structError
    else
      match parseFacets (bs.drop 50) n with
      | .ok fs => .ok (decodeRecord (bs.take 50) :: fs)
      | .error e => .error e

/-- Model of `Stl.parse_binary_stl`: skip the 80-byte header, read the
4-byte facet count, then the records.  An empty read of the count field
(`if not packed_size`) returns with no facets; a partial 1-3 byte count
field makes `unpack("I")` raise `struct.error`. -/
def parse_binary_stl (bs : List ℕ) : Except DecodeError (List Facet) :=
  if ((bs.drop 80).take 4).length = 0 then .ok []
  else if ((bs.drop 80).take 4).length < 4 then .error .structError
  else parseFacets ((bs.drop 80).drop 4) (le32dec ((bs.drop 80).take 4))

/-- Pack the three coordinates of a point as three binary32 fields. -/
def packPoint? (p : Point) : Option (List ℕ) :=
  match encodef32 p.x, encodef32 p.y, encodef32 p.z with
  | some b0, some b1, some b2 => some (le32enc b0 ++ le32enc b1 ++ le32enc b2)
  | _, _, _ => none

/-- The 50-byte record `save_binary_stl` writes for one facet: the
recomputed normal, the three vertices and the 2-byte color, 63489 (red)
when the facet is colored and 14185 (blue) otherwise.  `none` models an
exception while computing or packing (a `ZeroDivisionError` in `normal`,
an `OverflowError` in `pack`, or a value the exact model cannot pack). -/
def recordFromNormal (f : Facet) : NormalOutcome → Option (List ℕ)
  | .ok n =>
    match packPoint? n, packPoint? f.p0, packPoint? f.p1, packPoint? f.p2 with
    | some nb, some v0, some v1, some v2 =>
      some (nb ++ v0 ++ v1 ++ v2 ++ le16enc (if f.colored then 63489 else 14185))
    | _, _, _, _ => none
  | _ => none

def Facet.record? (f : Facet) : Option (List ℕ) :=
  recordFromNormal f f.normal

/-- The records of a list of facets, in order; `none` as soon as one
facet's record computation raises.  The real program writes the records
incrementally, so an exception leaves a partial file; the model keeps no
partial output. -/
def recordsOf? : List Facet → Option (List (List ℕ))
  | [] => some []
  | f :: rest =>
    match f.record?, recordsOf? rest with
    | some r, some rs => some (r :: rs)
    | _, _ => none

/-- Model of `Stl.save_binary_stl`: an all-zero 80-byte header, the
4-byte facet count, then the 50-byte records in facet order. -/
def Stl.save_binary_stl (m : Stl) : Option (List ℕ) :=
  match recordsOf? m.facets with
  | none => none
  | some recs => some (List.replicate 80 0 ++ le32enc m.facets.length ++ recs.flatten)

/-- Error aborting a run of `main`: an uncaught `struct.error` from
parsing, or an uncaught exception while building a record for saving. -/
inductive RunError where
  | structError
  | saveError
deriving DecidableEq, Repr

/-- The per-file body of `main`: parse, detect the spots, and when any
were found inflate by 1.15 and save; `none` means no spots were detected
and no file is written. -/
def processFile (bs : List ℕ) : Except RunError (Option (List ℕ)) :=
  match parse_binary_stl bs with
  | .error _ => .error .structError
  | .ok facets =>
    let stl : Stl := ⟨facets⟩
    let spots := stl.detect_parts
    if spots.isEmpty then .ok none
    else
      match (stl.inflate_parts spots (23/20)).save_binary_stl with
      | none => .error .saveError
      | some out => .ok (some out)

/-- Model of `main`: process the input files in order.  There is no
exception handler, so the first error aborts the whole run and the
remaining files are not processed. -/
def mainRun : List (List ℕ) → Except RunError (List (Option (List ℕ)))
  | [] => .ok []
  | bs :: rest =>
    match processFile bs with
    | .error e => .error e
    | .ok r =>
      match mainRun rest with
      | .error e => .error e
      | .ok rs => .ok (r :: rs)

/-- Spot proximity as the specification words it: on every axis other
than the spot's free dimension, the absolute difference between the
point's coordinate and the anchor's coordinate is at most 2.9. -/
def NearPred (p : Point) (s : Spot) : Prop :=
  ∀ i < 3, i ≠ s.2 → |p.coord i - s.1.coord i| ≤ 29/10

instance (p : Point) (s : Spot) : Decidable (NearPred p s) := by
  unfold NearPred; infer_instance

/-- Arithmetic mean of the three vertices, as the specification words the
centroid used by the normal computation. -/
def specCenter (f : Facet) : Point :=
  ⟨(f.p0.x + f.p1.x + f.p2.x) / 3,
   (f.p0.y + f.p1.y + f.p2.y) / 3,
   (f.p0.z + f.p1.z + f.p2.z) / 3⟩

/-- The cross product `(p0 - c) × (p1 - c)` with `c` the vertex mean, as
the specification words the unnormalized normal. -/
def specCross (f : Facet) : Point :=
  ⟨(f.p0 - specCenter f).y * (f.p1 - specCenter f).z -
     (f.p0 - specCenter f).z * (f.p1 - specCenter f).y,
   (f.p0 - specCenter f).z * (f.p1 - specCenter f).x -
     (f.p0 - specCenter f).x * (f.p1 - specCenter f).z,
   (f.p0 - specCenter f).x * (f.p1 - specCenter f).y -
     (f.p0 - specCenter f).y * (f.p1 - specCenter f).x⟩

/-- The `j`-th vertex float field of a 50-byte record, as a 32-bit word:
the vertex area spans bytes 12..47, four bytes per field. -/
def vertexWord (r : List ℕ) (j : ℕ) : ℕ := le32dec ((r.drop (12 + 4 * j)).take 4)

/-- A triangle whose vertices coincide; its cross product is zero. -/
def degenerateFacet : Facet := ⟨⟨0, 0, 0⟩, ⟨0, 0, 0⟩, ⟨0, 0, 0⟩, false⟩

/-- The right triangle (0,0,0), (1,0,0), (0,1,0) of the specification. -/
def rightTriangleFacet : Facet := ⟨⟨0, 0, 0⟩, ⟨1, 0, 0⟩, ⟨0, 1, 0⟩, false⟩

/-- A stream with a complete header and count announcing one facet, but
no record bytes at all. -/
def countOnlyBad : List ℕ := List.replicate 80 0 ++ [1, 0, 0, 0]

/-- A stream of 80 bytes: the count field is entirely absent. -/
def headerOnly : List ℕ := List.replicate 80 0

/-- Little-endian binary32 encoding of 1.0. -/
def f32OneBytes : List ℕ := [0, 0, 128, 63]

/-- Little-endian binary32 encoding of 0.0. -/
def f32ZeroBytes : List ℕ := [0, 0, 0, 0]

/-- A valid 50-byte record holding the right triangle (normal fields and
attribute bytes arbitrary). -/
def triRecord : List ℕ :=
  f32ZeroBytes ++ f32ZeroBytes ++ f32ZeroBytes ++
  f32ZeroBytes ++ f32ZeroBytes ++ f32ZeroBytes ++
  f32OneBytes ++ f32ZeroBytes ++ f32ZeroBytes ++
  f32ZeroBytes ++ f32OneBytes ++ f32ZeroBytes ++ [7, 7]

/-- A well-formed one-facet stream holding the right triangle. -/
def triStream : List ℕ := List.replicate 80 0 ++ [1, 0, 0, 0] ++ triRecord

/-- A well-formed one-facet stream whose single record is all zeroes: a
degenerate triangle. -/
def degenerateStream : List ℕ := List.replicate 80 0 ++ [1, 0, 0, 0] ++ List.replicate 50 0

/-- A small right triangle scaled by the least positive binary32 value,
marked colored; every coordinate and its recomputed normal (0, 0, 1)
encode exactly. -/
def c7Facet : Facet := ⟨⟨0, 0, 0⟩, ⟨pow2 (-149), 0, 0⟩, ⟨0, pow2 (-149), 0⟩, true⟩

/-- The record `save_binary_stl` writes for `c7Facet`. -/
def c7Record : List ℕ :=
  (le32enc 0 ++ le32enc 0 ++ le32enc 1065353216) ++
  (le32enc 0 ++ le32enc 0 ++ le32enc 0) ++
  (le32enc 1 ++ le32enc 0 ++ le32enc 0) ++
  (le32enc 0 ++ le32enc 1 ++ le32enc 0) ++ le16enc 63489

/-- A valid 50-byte record: vertices (0,0,0), (2^-149,0,0), (0,2^-149,0)
as binary32 words 0 and 1, normal fields and attribute bytes zero. -/
def c3Chunk : List ℕ :=
  le32enc 0 ++ le32enc 0 ++ le32enc 0 ++
  le32enc 0 ++ le32enc 0 ++ le32enc 0 ++
  le32enc 1 ++ le32enc 0 ++ le32enc 0 ++
  le32enc 0 ++ le32enc 1 ++ le32enc 0 ++ le16enc 7

/-- The record re-encoding `c3Chunk`'s facet produces: recomputed normal
(0, 0, 1), the same vertex words, and the neutral color 14185. -/
def c3OutRecord : List ℕ :=
  (le32enc 0 ++ le32enc 0 ++ le32enc 1065353216) ++
  (le32enc 0 ++ le32enc 0 ++ le32enc 0) ++
  (le32enc 1 ++ le32enc 0 ++ le32enc 0) ++
  (le32enc 0 ++ le32enc 1 ++ le32enc 0) ++ le16enc 14185

/-- The slicing-axis coordinates of the points whose quantized
scanning-axis key equals `k`: the group of points one `limits` entry
accumulates over. -/
def groupCoords (pts : List Point) (scanning slicing : ℕ) (k : ℚ) : List ℚ :=
  (pts.filter fun p => decide (pointKey p scanning = k)).map fun p => p.coord slicing

/-- One update of a running (min, max) pair with a new coordinate;
`none` is the not-yet-seen state. -/
def mmStep (o : Option (ℚ × ℚ)) (c : ℚ) : Option (ℚ × ℚ) :=
  match o with
  | none => some (c, c)
  | some (lo, hi) => some (min c lo, max c hi)

/-- Running (min, max) of a list of coordinates. -/
def mmFold (l : List ℚ) : Option (ℚ × ℚ) := l.foldl mmStep none

/-- Combine a seed (min, max) state with the (min, max) of a further
batch of coordinates. -/
def mmMerge : Option (ℚ × ℚ) → Option (ℚ × ℚ) → Option (ℚ × ℚ)
  | a, none => a
  | none, some b => some b
  | some (lo1, hi1), some (lo2, hi2) => some (min lo2 lo1, max hi2 hi1)

/-- Look up the (min, max) entry of a key in a `limits` table. -/
def lookupLim (k : ℚ) : List (ℚ × ℚ × ℚ) → Option (ℚ × ℚ)
  | [] => none
  | e :: rest => if e.1 = k then some e.2 else lookupLim k rest

@[simp] theorem Point.coord_zero (p : Point) : p.coord 0 = p.x := rfl

@[simp] theorem Point.coord_one (p : Point) : p.coord 1 = p.y := rfl

@[simp] theorem Point.coord_two (p : Point) : p.coord 2 = p.z := rfl

@[simp] theorem Point.add_def (p q : Point) : p + q = ⟨p.x + q.x, p.y + q.y, p.z + q.z⟩ := rfl

@[simp] theorem Point.sub_def (p q : Point) : p - q = ⟨p.x - q.x, p.y - q.y, p.z - q.z⟩ := rfl

@[simp] theorem absQ_eq_abs (q : ℚ) : absQ q = |q| := by
  unfold absQ
  rcases lt_or_le q 0 with h | h
  · rw [if_pos h, abs_of_neg h]
  · rw [if_neg (not_lt.mpr h), abs_of_nonneg h]

theorem nearSpot_iff (p a : Point) (free : ℕ) :
    nearSpot p a free = true ↔ ∀ i < 3, i ≠ free → |p.coord i - a.coord i| ≤ 29/10 := by
  simp only [nearSpot, Bool.and_eq_true, Bool.or_eq_true, beq_iff_eq, decide_eq_true_eq,
    absQ_eq_abs]
  constructor
  · rintro ⟨⟨h0, h1⟩, h2⟩ i hi hne
    interval_cases i
    · rcases h0 with h | h
      · exact absurd h.symm hne
      · simpa using h
    · rcases h1 with h | h
      · exact absurd h.symm hne
      · simpa using h
    · rcases h2 with h | h
      · exact absurd h.symm hne
      · simpa using h
  · intro h
    refine ⟨⟨?_, ?_⟩, ?_⟩
    · rcases eq_or_ne free 0 with h0 | h0
      · exact Or.inl h0
      · exact Or.inr (by simpa using h 0 (by norm_num) (Ne.symm h0))
    · rcases eq_or_ne free 1 with h0 | h0
      · exact Or.inl h0
      · exact Or.inr (by simpa using h 1 (by norm_num) (Ne.symm h0))
    · rcases eq_or_ne free 2 with h0 | h0
      · exact Or.inl h0
      · exact Or.inr (by simpa using h 2 (by norm_num) (Ne.symm h0))

theorem nearSpot_true_iff (p : Point) (s : Spot) :
    nearSpot p s.1 s.2 = true ↔ NearPred p s := nearSpot_iff p s.1 s.2

theorem inflate_parts_of_not_near (p : Point) (f : ℚ) (spots : List Spot)
    (h : ∀ s ∈ spots, ¬ NearPred p s) : p.inflate_parts spots f = (p, false) := by
  induction spots with
  | nil => rfl
  | cons s rest ih =>
    have hs : ¬ (nearSpot p s.1 s.2 = true) := by
      rw [nearSpot_true_iff]; exact h s (List.mem_cons_self _ _)
    rw [Point.inflate_parts, if_neg hs]
    exact ih fun t ht => h t (List.mem_cons_of_mem _ ht)

theorem inflate_parts_first_match (p : Point) (f : ℚ) (pre post : List Spot) (s : Spot)
    (hpre : ∀ t ∈ pre, ¬ NearPred p t) (hs : NearPred p s) :
    p.inflate_parts (pre ++ s :: post) f = (inflatePoint p s.1 s.2 f, true) := by
  induction pre with
  | nil =>
    rw [List.nil_append, Point.inflate_parts, if_pos ((nearSpot_true_iff p s).mpr hs)]
  | cons t rest ih =>
    have ht : ¬ (nearSpot p t.1 t.2 = true) := by
      rw [nearSpot_true_iff]; exact hpre t (List.mem_cons_self _ _)
    rw [List.cons_append, Point.inflate_parts, if_neg ht]
    exact ih fun u hu => hpre u (List.mem_cons_of_mem _ hu)

theorem inflatePoint_coord (p a : Point) (free : ℕ) (f : ℚ) :
    ∀ i < 3, (inflatePoint p a free f).coord i =
      if i = free then p.coord i else a.coord i + f * (p.coord i - a.coord i) := by
  intro i hi
  interval_cases i
  · simp only [inflatePoint, Point.coord_zero]
    by_cases h : free = 0
    · simp [h]
    · rw [if_neg h, if_neg (Ne.symm h)]; ring
  · simp only [inflatePoint, Point.coord_one]
    by_cases h : free = 1
    · simp [h]
    · rw [if_neg h, if_neg (Ne.symm h)]; ring
  · simp only [inflatePoint, Point.coord_two]
    by_cases h : free = 2
    · simp [h]
    · rw [if_neg h, if_neg (Ne.symm h)]; ring

theorem inflate_parts_matched_iff (p : Point) (f : ℚ) (spots : List Spot) :
    (p.inflate_parts spots f).2 = true ↔ ∃ s ∈ spots, NearPred p s := by
  induction spots with
  | nil => simp [Point.inflate_parts]
  | cons s rest ih =>
    rw [Point.inflate_parts]
    by_cases h : nearSpot p s.1 s.2 = true
    · rw [if_pos h]
      constructor
      · intro _
        exact ⟨s, List.mem_cons_self s rest, (nearSpot_true_iff p s).mp h⟩
      · intro _
        rfl
    · rw [if_neg h, ih]
      simp only [List.mem_cons]
      constructor
      · rintro ⟨t, ht, hn⟩
        exact ⟨t, Or.inr ht, hn⟩
      · rintro ⟨t, rfl | ht, hn⟩
        · exact absurd ((nearSpot_true_iff p t).mpr hn) h
        · exact ⟨t, ht, hn⟩

theorem inflatePoint_one (p a : Point) (free : ℕ) : inflatePoint p a free 1 = p := by
  unfold inflatePoint
  have h : ∀ (c : Prop) [Decidable c] (u v : ℚ), (if c then u else (u - v) * 1 + v) = u := by
    intro c _ u v
    split <;> ring
  rw [h, h, h]

theorem inflate_parts_one_fst (p : Point) (spots : List Spot) :
    (p.inflate_parts spots 1).1 = p := by
  induction spots with
  | nil => rfl
  | cons s rest ih =>
    rw [Point.inflate_parts]
    split
    · exact inflatePoint_one p s.1 s.2
    · exact ih

theorem bool_eq_of_iff {b c : Bool} (h : b = true ↔ c = true) : b = c := by
  revert h
  cases b <;> cases c <;> simp

theorem facet_colored_unfold (fa : Facet) (spots : List Spot) (f : ℚ) :
    (fa.inflate_parts spots f).colored =
      (fa.colored || ((fa.p0.inflate_parts spots f).2 ||
        (fa.p1.inflate_parts spots f).2 || (fa.p2.inflate_parts spots f).2)) := rfl

theorem matched_three_iff (fa : Facet) (spots : List Spot) (f : ℚ) :
    ((fa.p0.inflate_parts spots f).2 || (fa.p1.inflate_parts spots f).2 ||
      (fa.p2.inflate_parts spots f).2) = true ↔
    ∃ p ∈ [fa.p0, fa.p1, fa.p2], ∃ s ∈ spots, NearPred p s := by
  simp only [Bool.or_eq_true, inflate_parts_matched_iff, List.mem_cons,
    List.not_mem_nil, or_false]
  constructor
  · rintro ((⟨s, hs, hn⟩ | ⟨s, hs, hn⟩) | ⟨s, hs, hn⟩)
    · exact ⟨fa.p0, Or.inl rfl, s, hs, hn⟩
    · exact ⟨fa.p1, Or.inr (Or.inl rfl), s, hs, hn⟩
    · exact ⟨fa.p2, Or.inr (Or.inr rfl), s, hs, hn⟩
  · rintro ⟨p, rfl | rfl | rfl, s, hs, hn⟩
    · exact Or.inl (Or.inl ⟨s, hs, hn⟩)
    · exact Or.inl (Or.inr ⟨s, hs, hn⟩)
    · exact Or.inr ⟨s, hs, hn⟩

theorem facet_inflate_one (fa : Facet) (spots : List Spot) :
    fa.inflate_parts spots 1 =
      ⟨fa.p0, fa.p1, fa.p2,
       fa.colored || decide (∃ p ∈ [fa.p0, fa.p1, fa.p2], ∃ s ∈ spots, NearPred p s)⟩ := by
  unfold Facet.inflate_parts
  rw [inflate_parts_one_fst fa.p0, inflate_parts_one_fst fa.p1, inflate_parts_one_fst fa.p2]
  have hb : ((fa.p0.inflate_parts spots 1).2 || (fa.p1.inflate_parts spots 1).2 ||
      (fa.p2.inflate_parts spots 1).2) =
      decide (∃ p ∈ [fa.p0, fa.p1, fa.p2], ∃ s ∈ spots, NearPred p s) := by
    apply bool_eq_of_iff
    rw [matched_three_iff]
    simp only [decide_eq_true_eq]
  rw [hb]

/-- C1: a point within 2.9 of a spot anchor on every non-free axis is
rescaled to `anchor + factor * (point - anchor)` on the non-free axes
with the free coordinate untouched; spots are tested in order and the
first match wins; a point near no spot is left entirely unchanged. -/
theorem c1_inflate_point_spec (p : Point) (f : ℚ) :
    (∀ spots : List Spot, (∀ s ∈ spots, ¬ NearPred p s) →
      p.inflate_parts spots f = (p, false)) ∧
    (∀ (pre post : List Spot) (s : Spot), (∀ t ∈ pre, ¬ NearPred p t) → NearPred p s →
      (p.inflate_parts (pre ++ s :: post) f).2 = true ∧
      ∀ i < 3, (p.inflate_parts (pre ++ s :: post) f).1.coord i =
        if i = s.2 then p.coord i
        else s.1.coord i + f * (p.coord i - s.1.coord i)) := by
  refine ⟨fun spots h => inflate_parts_of_not_near p f spots h, fun pre post s hpre hs => ?_⟩
  rw [inflate_parts_first_match p f pre post s hpre hs]
  exact ⟨rfl, inflatePoint_coord p s.1 s.2 f⟩

/-- Witness for C1 at a concrete point and spot list. -/
theorem c1_witness :
    (Point.inflate_parts ⟨0, 0, 0⟩ ([(⟨10, 10, 10⟩, 0)] ++ (⟨1, 1, 0⟩, 2) :: []) 2).2 = true ∧
    ∀ i < 3, (Point.inflate_parts ⟨0, 0, 0⟩ ([(⟨10, 10, 10⟩, 0)] ++ (⟨1, 1, 0⟩, 2) :: []) 2).1.coord i =
      if i = ((⟨1, 1, 0⟩, 2) : Spot).2 then Point.coord ⟨0, 0, 0⟩ i
      else Point.coord (⟨1, 1, 0⟩ : Point) i + 2 * (Point.coord ⟨0, 0, 0⟩ i - Point.coord (⟨1, 1, 0⟩ : Point) i) :=
  (c1_inflate_point_spec ⟨0, 0, 0⟩ 2).2 [(⟨10, 10, 10⟩, 0)] [] (⟨1, 1, 0⟩, 2)
    (by
      intro t ht hn
      rcases List.mem_singleton.mp ht with rfl
      have h1 := hn 1 (by norm_num) (by norm_num)
      rw [Point.coord_one, Point.coord_one] at h1
      norm_num at h1)
    (by
      intro i hi hne
      interval_cases i
      · rw [Point.coord_zero, Point.coord_zero]; norm_num
      · rw [Point.coord_one, Point.coord_one]; norm_num
      · exact absurd rfl hne)

/-- C6: after inflation a facet's colored flag is true exactly when one
of its three points is near some spot; facets built by `binary_facet`
start with the flag false. -/
theorem c6_colored_iff (fa : Facet) (spots : List Spot) (f : ℚ) (c : List ℕ)
    (h : fa.colored = false) :
    ((fa.inflate_parts spots f).colored = true ↔
      ∃ p ∈ [fa.p0, fa.p1, fa.p2], ∃ s ∈ spots, NearPred p s) ∧
    (decodeRecord c).colored = false := by
  refine ⟨?_, rfl⟩
  rw [facet_colored_unfold, h, Bool.false_or]
  exact matched_three_iff fa spots f

/-- Witness for C6 at a concrete facet and spot list. -/
theorem c6_witness :
    ((Facet.inflate_parts rightTriangleFacet [(⟨0, 0, 0⟩, 2)] (5/4)).colored = true ↔
      ∃ p ∈ [rightTriangleFacet.p0, rightTriangleFacet.p1, rightTriangleFacet.p2],
        ∃ s ∈ [((⟨0, 0, 0⟩ : Point), 2)], NearPred p s) ∧
    (decodeRecord []).colored = false :=
  c6_colored_iff rightTriangleFacet [(⟨0, 0, 0⟩, 2)] (5/4) [] rfl

theorem parse_short_ok (bs : List ℕ) (h : bs.length ≤ 80) : parse_binary_stl bs = .ok [] := by
  have hlen : ((bs.drop 80).take 4).length = 0 := by
    rw [List.length_take, List.length_drop]; omega
  unfold parse_binary_stl
  rw [if_pos hlen]

theorem parse_partial_count (bs : List ℕ) (h1 : 80 < bs.length) (h2 : bs.length < 84) :
    parse_binary_stl bs = .error .structError := by
  have hlen : ((bs.drop 80).take 4).length = bs.length - 80 := by
    rw [List.length_take, List.length_drop]; omega
  unfold parse_binary_stl
  rw [if_neg (by rw [hlen]; omega), if_pos (by rw [hlen]; omega)]

theorem parseFacets_short (n : ℕ) : ∀ bs : List ℕ, bs.length < 50 * n →
    parseFacets bs n = .error .structError := by
  induction n with
  | zero => intro bs h; exact absurd h (by omega)
  | succ k ih =>
    intro bs h
    by_cases h50 : bs.length < 50
    · have hc : (bs.take 50).length < 50 := by rw [List.length_take]; omega
      simp only [parseFacets]
      rw [if_pos hc]
    · have hc : ¬ ((bs.take 50).length < 50) := by rw [List.length_take]; omega
      have hr := ih (bs.drop 50) (by rw [List.length_drop]; omega)
      simp only [parseFacets]
      rw [if_neg hc, hr]

/-- C5 counterexample: an 81-byte stream (one byte of the count field
present) does not decode as an empty mesh; `unpack("I")` raises a
`struct.error` on the 1-byte buffer. -/
theorem c5_counterexample :
    parse_binary_stl (List.replicate 81 0) = .error .structError :=
  parse_partial_count _ (by simp) (by simp)

/-- C5 (amended): a stream of at most 80 bytes (the count field entirely
absent) decodes as an empty mesh; a stream of 81 to 83 bytes (a partial
1-3 byte count field) raises a `struct.error` instead of being treated
as empty. -/
theorem c5_truncated_header (bs : List ℕ) :
    (bs.length ≤ 80 → parse_binary_stl bs = .ok []) ∧
    (80 < bs.length → bs.length < 84 → parse_binary_stl bs = .error .structError) :=
  ⟨parse_short_ok bs, parse_partial_count bs⟩

/-- Witness for C5 at concrete streams of 80 and 83 bytes. -/
theorem c5_witness :
    parse_binary_stl headerOnly = .ok [] ∧
    parse_binary_stl (List.replicate 83 0) = .error .structError :=
  ⟨(c5_truncated_header headerOnly).1 (by simp [headerOnly]),
   (c5_truncated_header (List.replicate 83 0)).2 (by simp) (by simp)⟩

/-- C4 counterexample: a run over a malformed file followed by a healthy
file aborts with the uncaught `struct.error`; the second file is never
processed, contradicting the claim that remaining files are still
processed. -/
theorem c4_counterexample :
    mainRun [countOnlyBad, headerOnly] = .error .structError := by rfl

/-- C4 (amended): a facet record that cannot be read in full raises a
`struct.error`, observable and distinct from the at-most-80-byte
truncated-header case, which returns an empty mesh without error; but
the exception is uncaught, so it aborts the entire run and the remaining
input files are not processed. -/
theorem c4_malformed_record :
    (∀ (bs : List ℕ) (N : ℕ), 84 ≤ bs.length → le32dec ((bs.drop 80).take 4) = N →
      bs.length < 84 + 50 * N → parse_binary_stl bs = .error .structError) ∧
    (∀ bs : List ℕ, bs.length ≤ 80 → parse_binary_stl bs = .ok []) ∧
    (∀ (bs : List ℕ) (rest : List (List ℕ)) (e : RunError),
      processFile bs = .error e → mainRun (bs :: rest) = .error e) := by
  refine ⟨?_, parse_short_ok, ?_⟩
  · intro bs N h84 hN hshort
    have hp : ((bs.drop 80).take 4).length = 4 := by
      rw [List.length_take, List.length_drop]; omega
    unfold parse_binary_stl
    rw [if_neg (by rw [hp]; omega), if_neg (by rw [hp]; omega), hN]
    apply parseFacets_short
    rw [List.length_drop, List.length_drop]
    omega
  · intro bs rest e h
    simp only [mainRun]
    rw [h]

/-- Witness for C4 at concrete streams. -/
theorem c4_witness :
    parse_binary_stl countOnlyBad = .error .structError ∧
    parse_binary_stl headerOnly = .ok [] ∧
    mainRun (countOnlyBad :: [headerOnly]) = .error .structError := by
  have hbad : parse_binary_stl countOnlyBad = .error .structError :=
    c4_malformed_record.1 countOnlyBad 1 (by simp [countOnlyBad]) (by rfl)
      (by simp [countOnlyBad])
  refine ⟨hbad, c4_malformed_record.2.1 headerOnly (by simp [headerOnly]), ?_⟩
  apply c4_malformed_record.2.2
  unfold processFile
  rw [hbad]

theorem sqrtQ?_eq_some {q l : ℚ} (h : sqrtQ? q = some l) : 0 ≤ l ∧ l * l = q := by
  unfold sqrtQ? at h
  split_ifs at h with hc
  have h' := Option.some.inj h
  subst h'
  exact ⟨div_nonneg (by exact_mod_cast Int.sqrt_nonneg q.num) (Nat.cast_nonneg _), hc⟩

theorem sqrtQ?_mul_self (l : ℚ) (hl : 0 ≤ l) : sqrtQ? (l * l) = some l := by
  have h1 : ((Int.sqrt ((l * l).num) : ℤ) : ℚ) = (l.num : ℚ) := by
    rw [Rat.mul_self_num, Int.sqrt_eq, Int.natAbs_of_nonneg (Rat.num_nonneg.mpr hl)]
  have h2 : ((Nat.sqrt ((l * l).den) : ℕ) : ℚ) = (l.den : ℚ) := by
    rw [Rat.mul_self_den, Nat.sqrt_eq]
  unfold sqrtQ?
  rw [h1, h2, Rat.num_div_den, if_pos rfl]

theorem scalar_product_self_eq_zero (n : Point) :
    n.scalar_product n = 0 ↔ n = ⟨0, 0, 0⟩ := by
  constructor
  · intro h
    obtain ⟨x, y, z⟩ := n
    simp only [Point.scalar_product] at h
    have hx : x = 0 := by nlinarith [mul_self_nonneg x, mul_self_nonneg y, mul_self_nonneg z]
    have hy : y = 0 := by nlinarith [mul_self_nonneg x, mul_self_nonneg y, mul_self_nonneg z]
    have hz : z = 0 := by nlinarith [mul_self_nonneg x, mul_self_nonneg y, mul_self_nonneg z]
    simp [hx, hy, hz]
  · intro h
    rw [h]
    simp [Point.scalar_product]

theorem normal_of_cross_zero (f : Facet) (h : f.normalCross = ⟨0, 0, 0⟩) :
    f.normal = NormalOutcome.zeroDivisionError := by
  unfold Facet.normal
  rw [h]
  have h0 : (Point.mk 0 0 0).scalar_product (Point.mk 0 0 0) = (0 : ℚ) := by
    simp [Point.scalar_product]
  rw [h0]
  have hs : sqrtQ? (0 : ℚ) = some 0 := by
    simpa using sqrtQ?_mul_self 0 le_rfl
  rw [hs]
  show (match (Point.mk (0 : ℚ) 0 0).div? 0 with
        | none => NormalOutcome.zeroDivisionError
        | some r => NormalOutcome.ok r) = NormalOutcome.zeroDivisionError
  unfold Point.div?
  rw [if_pos rfl]

theorem normal_of_norm (f : Facet) (l : ℚ) (h0 : 0 ≤ l) (hne : l ≠ 0)
    (hl : l * l = f.normalCross.scalar_product f.normalCross) :
    f.normal = NormalOutcome.ok
      ⟨f.normalCross.x / l, f.normalCross.y / l, f.normalCross.z / l⟩ := by
  unfold Facet.normal
  rw [← hl, sqrtQ?_mul_self l h0]
  show (match f.normalCross.div? l with
        | none => NormalOutcome.zeroDivisionError
        | some r => NormalOutcome.ok r) = _
  have hd : f.normalCross.div? l =
      some ⟨f.normalCross.x / l, f.normalCross.y / l, f.normalCross.z / l⟩ := by
    unfold Point.div?
    rw [if_neg hne]
  rw [hd]

/-- C9 (amended): the normal computation returns a vector without error
for every triangle whose computed cross product is nonzero; when the
cross product is exactly zero (for instance a degenerate triangle), the
final division `normal / norm` divides by zero and raises a
`ZeroDivisionError` instead of returning a garbage vector. -/
theorem c9_zero_division_iff (f : Facet) :
    f.normal = NormalOutcome.zeroDivisionError ↔ f.normalCross = Point.mk 0 0 0 := by
  constructor
  · intro h
    by_contra hne
    have hs : f.normalCross.scalar_product f.normalCross ≠ 0 :=
      fun h0 => hne ((scalar_product_self_eq_zero f.normalCross).mp h0)
    unfold Facet.normal at h
    rcases hq : sqrtQ? (f.normalCross.scalar_product f.normalCross) with _ | l
    · rw [hq] at h
      exact NormalOutcome.noConfusion h
    · obtain ⟨hl0, hll⟩ := sqrtQ?_eq_some hq
      have hlne : l ≠ 0 := fun hz => hs (by rw [← hll, hz, mul_zero])
      rw [hq] at h
      have hd : f.normalCross.div? l =
          some ⟨f.normalCross.x / l, f.normalCross.y / l, f.normalCross.z / l⟩ := by
        unfold Point.div?
        rw [if_neg hlne]
      have h' : (match f.normalCross.div? l with
          | none => NormalOutcome.zeroDivisionError
          | some r => NormalOutcome.ok r) = NormalOutcome.zeroDivisionError := h
      rw [hd] at h'
      exact NormalOutcome.noConfusion h'
  · exact normal_of_cross_zero f

/-- C9 counterexample: a degenerate triangle (all three vertices equal)
makes the normal computation raise instead of returning a vector. -/
theorem c9_counterexample : degenerateFacet.normal = NormalOutcome.zeroDivisionError := by
  apply normal_of_cross_zero
  unfold Facet.normalCross degenerateFacet Point.div?
  norm_num

theorem normalCross_eq_specCross (f : Facet) : f.normalCross = specCross f := by
  unfold Facet.normalCross specCross specCenter Point.div?
  rw [if_neg (by norm_num : ¬ (3 : ℚ) = 0)]
  simp only [Point.add_def, Point.mk.injEq]
  refine ⟨?_, ?_, ?_⟩ <;> (simp only [Point.sub_def]; ring)

/-- C8: the computed normal is the cross product `(p0 - c) × (p1 - c)`,
with `c` the arithmetic mean of the three vertices, divided by its
Euclidean length (any `l ≥ 0` with `l * l` equal to the squared length);
for the right triangle (0,0,0), (1,0,0), (0,1,0) the result is (0,0,1),
a vector of magnitude 1. -/
theorem c8_normal_spec (f : Facet) (l : ℚ) (h0 : 0 ≤ l)
    (hl : l * l = (specCross f).scalar_product (specCross f)) (hne : l ≠ 0) :
    f.normal = NormalOutcome.ok
      ⟨(specCross f).x / l, (specCross f).y / l, (specCross f).z / l⟩ ∧
    f.normalCross = specCross f ∧
    rightTriangleFacet.normal = NormalOutcome.ok ⟨0, 0, 1⟩ ∧
    (Point.mk 0 0 1).scalar_product ⟨0, 0, 1⟩ = 1 := by
  have hcross := normalCross_eq_specCross f
  refine ⟨?_, hcross, ?_, by unfold Point.scalar_product; norm_num⟩
  · have h := normal_of_norm f l h0 hne (by rw [hcross, ← hl])
    rw [hcross] at h
    exact h
  · have hc : rightTriangleFacet.normalCross = ⟨0, 0, 1/3⟩ := by
      rw [normalCross_eq_specCross]
      unfold specCross specCenter rightTriangleFacet
      simp only [Point.sub_def, Point.mk.injEq]
      norm_num
    have h := normal_of_norm rightTriangleFacet (1/3) (by norm_num) (by norm_num)
      (by rw [hc]; unfold Point.scalar_product; norm_num)
    rw [hc] at h
    norm_num at h
    exact h

/-- Witness for C8 at the right triangle with length 1/3. -/
theorem c8_witness :
    rightTriangleFacet.normal = NormalOutcome.ok
      ⟨(specCross rightTriangleFacet).x / (1/3), (specCross rightTriangleFacet).y / (1/3),
       (specCross rightTriangleFacet).z / (1/3)⟩ ∧
    rightTriangleFacet.normalCross = specCross rightTriangleFacet ∧
    rightTriangleFacet.normal = NormalOutcome.ok ⟨0, 0, 1⟩ ∧
    (Point.mk 0 0 1).scalar_product ⟨0, 0, 1⟩ = 1 :=
  c8_normal_spec rightTriangleFacet (1/3) (by norm_num)
    (by
      unfold specCross specCenter rightTriangleFacet Point.scalar_product
      simp only [Point.sub_def]
      norm_num)
    (by norm_num)

/-- C10: inflating a mesh with factor 1 leaves every point of every facet
exactly unchanged (in the exact arithmetic of the model,
`(p - a) * 1 + a = p`), yet a facet's colored flag is still set whenever
one of its points lies within the 2.9 proximity threshold of some spot. -/
theorem c10_factor_one (m : Stl) (spots : List Spot) :
    (m.inflate_parts spots 1).facets = m.facets.map (fun fa =>
      ⟨fa.p0, fa.p1, fa.p2,
       fa.colored || decide (∃ p ∈ [fa.p0, fa.p1, fa.p2], ∃ s ∈ spots, NearPred p s)⟩) := by
  unfold Stl.inflate_parts
  exact congrArg m.facets.map (funext fun fa => facet_inflate_one fa spots)

theorem mmMerge_none_left (g : Option (ℚ × ℚ)) : mmMerge none g = g := by
  cases g with
  | none => rfl
  | some b => obtain ⟨lo, hi⟩ := b; rfl

theorem mmMerge_none_right (a : Option (ℚ × ℚ)) : mmMerge a none = a := by
  cases a with
  | none => rfl
  | some b => obtain ⟨lo, hi⟩ := b; rfl

theorem mmMerge_step (o g : Option (ℚ × ℚ)) (c : ℚ) :
    mmMerge (mmStep o c) g = mmMerge o (mmMerge (some (c, c)) g) := by
  rcases o with _ | ⟨l1, h1⟩ <;> rcases g with _ | ⟨l2, h2⟩ <;>
    simp [mmStep, mmMerge, min_assoc, max_assoc]

theorem foldl_mmStep_eq (l : List ℚ) : ∀ o, l.foldl mmStep o = mmMerge o (mmFold l) := by
  induction l with
  | nil =>
    intro o
    show o = mmMerge o none
    rw [mmMerge_none_right]
  | cons c t ih =>
    intro o
    show t.foldl mmStep (mmStep o c) = _
    rw [ih (mmStep o c)]
    have ht : mmFold (c :: t) = mmMerge (some (c, c)) (mmFold t) := by
      show t.foldl mmStep (mmStep none c) = _
      rw [ih (mmStep none c)]
      rfl
    rw [ht, mmMerge_step]

theorem mmFold_cons (c : ℚ) (t : List ℚ) :
    mmFold (c :: t) = mmMerge (some (c, c)) (mmFold t) := by
  show t.foldl mmStep (mmStep none c) = _
  rw [foldl_mmStep_eq]
  rfl

theorem mmFold_eq_none (l : List ℚ) : mmFold l = none ↔ l = [] := by
  cases l with
  | nil => simp [mmFold]
  | cons c t =>
    rw [mmFold_cons]
    cases h : mmFold t with
    | none => simp [mmMerge]
    | some b => obtain ⟨lo, hi⟩ := b; simp [mmMerge]

theorem mmFold_spec (l : List ℚ) : ∀ lo hi, mmFold l = some (lo, hi) →
    lo ∈ l ∧ hi ∈ l ∧ ∀ c ∈ l, lo ≤ c ∧ c ≤ hi := by
  induction l with
  | nil => intro lo hi h; simp [mmFold] at h
  | cons c t ih =>
    intro lo hi h
    rw [mmFold_cons] at h
    cases ht : mmFold t with
    | none =>
      rw [ht] at h
      have h' : some (c, c) = some (lo, hi) := h
      obtain ⟨rfl, rfl⟩ := Prod.mk.injEq .. ▸ Option.some.inj h'
      have ht0 : t = [] := (mmFold_eq_none t).mp ht
      subst ht0
      simp
    | some b =>
      obtain ⟨lo', hi'⟩ := b
      rw [ht] at h
      have h' : some (min lo' c, max hi' c) = some (lo, hi) := h
      obtain ⟨h1, h2⟩ := Prod.mk.injEq .. ▸ Option.some.inj h'
      obtain ⟨hl, hh, hb⟩ := ih lo' hi' ht
      subst h1
      subst h2
      refine ⟨?_, ?_, ?_⟩
      · rcases min_choice lo' c with h | h <;> rw [h]
        · exact List.mem_cons_of_mem _ hl
        · exact List.mem_cons_self _ _
      · rcases max_choice hi' c with h | h <;> rw [h]
        · exact List.mem_cons_of_mem _ hh
        · exact List.mem_cons_self _ _
      · intro x hx
        rcases List.mem_cons.mp hx with rfl | hx
        · exact ⟨min_le_right _ _, le_max_right _ _⟩
        · exact ⟨le_trans (min_le_left _ _) (hb x hx).1,
            le_trans (hb x hx).2 (le_max_left _ _)⟩

theorem mmFold_of_bounds (l : List ℚ) (lo hi : ℚ)
    (hlo : lo ∈ l) (hhi : hi ∈ l) (hb : ∀ c ∈ l, lo ≤ c ∧ c ≤ hi) :
    mmFold l = some (lo, hi) := by
  cases hf : mmFold l with
  | none =>
    rw [mmFold_eq_none] at hf
    subst hf
    simp at hlo
  | some b =>
    obtain ⟨lo', hi'⟩ := b
    obtain ⟨hl', hh', hb'⟩ := mmFold_spec l lo' hi' hf
    have e1 : lo' = lo := le_antisymm (hb' lo hlo).1 (hb lo' hl').1
    have e2 : hi' = hi := le_antisymm (hb hi' hh').2 (hb' hi hhi).2
    rw [e1, e2]

theorem lookupLim_update_self (m : List (ℚ × ℚ × ℚ)) (key c : ℚ) :
    lookupLim key (updateLimits m key c) = mmStep (lookupLim key m) c := by
  induction m with
  | nil => simp [updateLimits, lookupLim, mmStep]
  | cons e rest ih =>
    obtain ⟨k', lo, hi⟩ := e
    by_cases h : k' = key
    · subst h
      simp [updateLimits, lookupLim, mmStep]
    · simp only [updateLimits, if_neg h, lookupLim]
      exact ih

theorem lookupLim_update_other (m : List (ℚ × ℚ × ℚ)) (key c k : ℚ) (h : k ≠ key) :
    lookupLim k (updateLimits m key c) = lookupLim k m := by
  induction m with
  | nil =>
    simp [updateLimits, lookupLim]
    intro h'
    exact absurd h'.symm h
  | cons e rest ih =>
    obtain ⟨k', lo, hi⟩ := e
    by_cases hk : k' = key
    · subst hk
      simp only [updateLimits, if_pos rfl, lookupLim]
      rw [if_neg (fun hh => h hh.symm), if_neg (fun hh => h hh.symm)]
    · simp only [updateLimits, if_neg hk, lookupLim]
      by_cases hkk : k' = k
      · rw [if_pos hkk, if_pos hkk]
      · rw [if_neg hkk, if_neg hkk, ih]

theorem mem_keys_update (m : List (ℚ × ℚ × ℚ)) (key c a : ℚ) :
    a ∈ (updateLimits m key c).map (fun e => e.1) ↔
      a ∈ m.map (fun e => e.1) ∨ a = key := by
  induction m with
  | nil => simp [updateLimits]
  | cons e rest ih =>
    obtain ⟨k', lo, hi⟩ := e
    by_cases h : k' = key
    · subst h
      simp [updateLimits]
      tauto
    · simp only [updateLimits, if_neg h, List.map_cons, List.mem_cons, ih]
      tauto

theorem nodup_keys_update (m : List (ℚ × ℚ × ℚ)) (key c : ℚ)
    (h : (m.map (fun e => e.1)).Nodup) :
    ((updateLimits m key c).map (fun e => e.1)).Nodup := by
  induction m with
  | nil => simp [updateLimits]
  | cons e rest ih =>
    obtain ⟨k', lo, hi⟩ := e
    simp only [List.map_cons, List.nodup_cons] at h
    obtain ⟨hnotin, hnd⟩ := h
    by_cases hk : k' = key
    · subst hk
      rw [show updateLimits ((k', lo, hi) :: rest) k' c = (k', min c lo, max c hi) :: rest by
        rw [updateLimits]; exact if_pos rfl]
      simp only [List.map_cons, List.nodup_cons]
      exact ⟨hnotin, hnd⟩
    · simp only [updateLimits, if_neg hk, List.map_cons, List.nodup_cons]
      refine ⟨?_, ih hnd⟩
      rw [mem_keys_update]
      rintro (hmem | rfl)
      · exact hnotin hmem
      · exact hk rfl

theorem lookupLim_detect_aux (sc sl : ℕ) (k : ℚ) (pts : List Point) :
    ∀ acc : List (ℚ × ℚ × ℚ),
    lookupLim k (pts.foldl (fun acc p => updateLimits acc (pointKey p sc) (p.coord sl)) acc) =
      mmMerge (lookupLim k acc) (mmFold (groupCoords pts sc sl k)) := by
  induction pts with
  | nil =>
    intro acc
    show lookupLim k acc = mmMerge (lookupLim k acc) (mmFold (groupCoords [] sc sl k))
    rw [(by simp [groupCoords, mmFold] : mmFold (groupCoords [] sc sl k) = none),
      mmMerge_none_right]
  | cons p rest ih =>
    intro acc
    show lookupLim k (rest.foldl _ (updateLimits acc (pointKey p sc) (p.coord sl))) = _
    rw [ih]
    by_cases hk : pointKey p sc = k
    · have hg : groupCoords (p :: rest) sc sl k = p.coord sl :: groupCoords rest sc sl k := by
        simp [groupCoords, List.filter_cons, hk]
      rw [hg, mmFold_cons, ← mmMerge_step, hk, lookupLim_update_self]
    · have hg : groupCoords (p :: rest) sc sl k = groupCoords rest sc sl k := by
        simp [groupCoords, List.filter_cons, hk]
      rw [hg, lookupLim_update_other acc (pointKey p sc) (p.coord sl) k
        (fun h => hk h.symm)]

theorem lookupLim_detectLimits (pts : List Point) (sc sl : ℕ) (k : ℚ) :
    lookupLim k (detectLimits pts sc sl) = mmFold (groupCoords pts sc sl k) := by
  unfold detectLimits
  rw [lookupLim_detect_aux]
  show mmMerge none _ = _
  rw [mmMerge_none_left]

theorem nodup_keys_detectLimits (pts : List Point) (sc sl : ℕ) :
    ((detectLimits pts sc sl).map (fun e => e.1)).Nodup := by
  unfold detectLimits
  suffices h : ∀ (l : List Point) (acc : List (ℚ × ℚ × ℚ)),
      (acc.map (fun e => e.1)).Nodup →
      ((l.foldl (fun acc p => updateLimits acc (pointKey p sc) (p.coord sl)) acc).map
        (fun e => e.1)).Nodup by
    exact h pts [] (by simp)
  intro l
  induction l with
  | nil => intro acc h; exact h
  | cons p rest ih =>
    intro acc h
    exact ih _ (nodup_keys_update _ _ _ h)

theorem lookupLim_eq_some_of_mem (m : List (ℚ × ℚ × ℚ))
    (hnd : (m.map (fun e => e.1)).Nodup) (k : ℚ) (v : ℚ × ℚ) (h : (k, v) ∈ m) :
    lookupLim k m = some v := by
  induction m with
  | nil => simp at h
  | cons e rest ih =>
    simp only [List.map_cons, List.nodup_cons] at hnd
    obtain ⟨hnotin, hnd'⟩ := hnd
    rcases List.mem_cons.mp h with rfl | hmem
    · simp [lookupLim]
    · obtain ⟨k', v'⟩ := e
      have hne : k' ≠ k := by
        rintro rfl
        exact hnotin (List.mem_map.mpr ⟨(k', v), hmem, rfl⟩)
      simp only [lookupLim, if_neg hne]
      exact ih hnd' hmem

theorem mem_of_lookupLim (m : List (ℚ × ℚ × ℚ)) (k : ℚ) (v : ℚ × ℚ)
    (h : lookupLim k m = some v) : (k, v) ∈ m := by
  induction m with
  | nil => exact absurd h (by simp [lookupLim])
  | cons e rest ih =>
    obtain ⟨k', v'⟩ := e
    unfold lookupLim at h
    split_ifs at h with he
    · obtain rfl : v' = v := Option.some.inj h
      obtain rfl : k' = k := he
      exact List.mem_cons_self _ _
    · exact List.mem_cons_of_mem _ (ih h)

theorem mem_spotsForPair (pts : List Point) (sc sl : ℕ) (spot : Spot) :
    spot ∈ spotsForPair pts sc sl ↔
      ∃ k lo hi, (k, lo, hi) ∈ detectLimits pts sc sl ∧
        229/100 ≤ hi - lo ∧ hi - lo ≤ 236/100 ∧
        spot = (((Point.mk 0 0 0).setCoord sc k).setCoord sl ((lo + hi) / 2),
          freeDim sc sl) := by
  unfold spotsForPair
  rw [List.mem_filterMap]
  constructor
  · rintro ⟨e, he, hf⟩
    obtain ⟨k, lo, hi⟩ := e
    split_ifs at hf with hband
    exact ⟨k, lo, hi, he, hband.1, hband.2, (Option.some.inj hf).symm⟩
  · rintro ⟨k, lo, hi, hmem, h1, h2, rfl⟩
    refine ⟨(k, lo, hi), hmem, ?_⟩
    rw [if_pos ⟨h1, h2⟩]

/-- C2: a spot is emitted exactly when, for one of the six ordered
(scanning, slicing) axis pairs, some quantized-key group of points has a
slicing-coordinate span (max - min) inside the closed band [2.29, 2.36];
the spot's anchor carries the key on the scanning axis, the group
midpoint on the slicing axis and 0 on the free dimension, which is the
axis in neither role; the table keys are distinct, so each qualifying
group emits exactly one spot per pair. -/
theorem c2_detect_spec (m : Stl) (spot : Spot) :
    (spot ∈ m.detect_parts ↔
      ∃ sc sl, (sc, sl) ∈ axisPairs ∧ ∃ k lo hi,
        lo ∈ groupCoords m.pointsList sc sl k ∧ hi ∈ groupCoords m.pointsList sc sl k ∧
        (∀ c ∈ groupCoords m.pointsList sc sl k, lo ≤ c ∧ c ≤ hi) ∧
        229/100 ≤ hi - lo ∧ hi - lo ≤ 236/100 ∧
        spot = (((Point.mk 0 0 0).setCoord sc k).setCoord sl ((lo + hi) / 2),
          freeDim sc sl)) ∧
    (∀ sc sl : ℕ, ((detectLimits m.pointsList sc sl).map (fun e => e.1)).Nodup) ∧
    (∀ (sc sl : ℕ) (k mid : ℚ), (sc, sl) ∈ axisPairs →
      (((Point.mk 0 0 0).setCoord sc k).setCoord sl mid).coord sc = k ∧
      (((Point.mk 0 0 0).setCoord sc k).setCoord sl mid).coord sl = mid ∧
      (((Point.mk 0 0 0).setCoord sc k).setCoord sl mid).coord (freeDim sc sl) = 0 ∧
      freeDim sc sl ≠ sc ∧ freeDim sc sl ≠ sl ∧ freeDim sc sl < 3) := by
  refine ⟨?_, fun sc sl => nodup_keys_detectLimits m.pointsList sc sl, ?_⟩
  · unfold Stl.detect_parts
    rw [List.mem_flatMap]
    constructor
    · rintro ⟨pr, hpr, hsp⟩
      obtain ⟨sc, sl⟩ := pr
      obtain ⟨k, lo, hi, hmem, h1, h2, hsp'⟩ := (mem_spotsForPair _ _ _ _).mp hsp
      have hlk := lookupLim_eq_some_of_mem _ (nodup_keys_detectLimits m.pointsList sc sl)
        k (lo, hi) hmem
      rw [lookupLim_detectLimits] at hlk
      obtain ⟨hlo, hhi, hb⟩ := mmFold_spec _ lo hi hlk
      exact ⟨sc, sl, hpr, k, lo, hi, hlo, hhi, hb, h1, h2, hsp'⟩
    · rintro ⟨sc, sl, hpr, k, lo, hi, hlo, hhi, hb, h1, h2, rfl⟩
      refine ⟨(sc, sl), hpr, (mem_spotsForPair _ _ _ _).mpr ⟨k, lo, hi, ?_, h1, h2, rfl⟩⟩
      apply mem_of_lookupLim
      rw [lookupLim_detectLimits]
      exact mmFold_of_bounds _ lo hi hlo hhi hb
  · intro sc sl k mid hpr
    fin_cases hpr
    all_goals exact ⟨rfl, rfl, rfl, by decide, by decide, by decide⟩

/-- Witness for C2: the anchor-layout conjunct applied at the concrete
axis pair (2, 0). -/
theorem c2_witness :
    (((Point.mk 0 0 0).setCoord 2 (5 : ℚ)).setCoord 0 (7 : ℚ)).coord 2 = 5 ∧
    (((Point.mk 0 0 0).setCoord 2 (5 : ℚ)).setCoord 0 (7 : ℚ)).coord 0 = 7 ∧
    (((Point.mk 0 0 0).setCoord 2 (5 : ℚ)).setCoord 0 (7 : ℚ)).coord (freeDim 2 0) = 0 ∧
    freeDim 2 0 ≠ 2 ∧ freeDim 2 0 ≠ 0 ∧ freeDim 2 0 < 3 :=
  (c2_detect_spec ⟨[]⟩ (⟨0, 0, 0⟩, 0)).2.2 2 0 5 7 (by decide)

theorem pow2_pos (z : ℤ) : 0 < pow2 z := zpow_pos (by norm_num) z

theorem pow2_add (a b : ℤ) : pow2 (a + b) = pow2 a * pow2 b := zpow_add₀ (by norm_num) a b

theorem pow2_lt_pow2 {a b : ℤ} (h : a < b) : pow2 a < pow2 b :=
  zpow_lt_zpow_right₀ (by norm_num) h

theorem pow2_le_pow2 {a b : ℤ} (h : a ≤ b) : pow2 a ≤ pow2 b :=
  zpow_le_zpow_right₀ (by norm_num) h

theorem pow2_natCast (n : ℕ) : pow2 (n : ℤ) = 2 ^ n := zpow_natCast 2 n

theorem pow2_zero_eq : pow2 0 = 1 := zpow_zero 2

theorem pow2_mul_pow2 (a b : ℤ) (h : a + b = 0) : pow2 a * pow2 b = 1 := by
  rw [← pow2_add, h, pow2_zero_eq]

theorem rhe_intCast (z : ℤ) : rhe (z : ℚ) = z := by
  unfold rhe
  rw [Int.floor_intCast]
  rw [if_pos (by norm_num : (z : ℚ) - (z : ℤ) < 1/2)]

theorem rhe_natCast (n : ℕ) : rhe (n : ℚ) = n := by
  have h := rhe_intCast (n : ℤ)
  rw [Int.cast_natCast] at h
  exact h

theorem signed_val (s' : ℕ) (v : ℚ) (hv : 0 < v) :
    absQ (if s' = 1 then -v else v) = v ∧
    ((if s' = 1 then -v else v) < 0 ↔ s' = 1) ∧
    (if s' = 1 then -v else v) ≠ 0 := by
  by_cases h : s' = 1
  · rw [if_pos h]
    exact ⟨by rw [absQ_eq_abs, abs_neg, abs_of_pos hv],
      iff_of_true (neg_lt_zero.mpr hv) h, neg_ne_zero.mpr (ne_of_gt hv)⟩
  · rw [if_neg h]
    exact ⟨by rw [absQ_eq_abs, abs_of_pos hv],
      iff_of_false (not_lt.mpr hv.le) h, ne_of_gt hv⟩

theorem find?_range_eq_some (p : ℕ → Bool) (k : ℕ) (hpk : p k = true)
    (hleast : ∀ j < k, p j = false) :
    ∀ n : ℕ, k < n → (List.range n).find? p = some k := by
  intro n
  induction n with
  | zero => intro hk; exact absurd hk (by omega)
  | succ m ih =>
    intro hk
    rw [List.range_succ, List.find?_append]
    by_cases h : k < m
    · rw [ih h]
      rfl
    · have hkm : k = m := by omega
      subst hkm
      have h1 : (List.range k).find? p = none := by
        rw [List.find?_eq_none]
        intro j hj
        simp [hleast j (List.mem_range.mp hj)]
      rw [h1]
      show List.find? p [k] = some k
      simp [List.find?, hpk]

theorem encodef32_eval (q : ℚ) (hq : q ≠ 0) (i : ℕ) (hi : i < 254)
    (h1 : absQ q < pow2 ((i : ℤ) - 125))
    (h2 : ∀ j : ℕ, j < i → ¬ (absQ q < pow2 ((j : ℤ) - 125))) :
    encodef32 q = encWord (if q < 0 then 2 ^ 31 else 0) i
      (rhe (absQ q * pow2 (149 - (i : ℤ)))) := by
  unfold encodef32
  rw [if_neg hq,
    find?_range_eq_some _ i (by simp only [decide_eq_true_eq]; exact h1)
      (fun j hj => by simp only [decide_eq_false_iff_not]; exact h2 j hj) 254 hi]

theorem encode_signed_mag (s' : ℕ) (hs' : s' < 2) (v : ℚ) (hv : 0 < v) (i : ℕ) (hi : i < 254)
    (h1 : v < pow2 ((i : ℤ) - 125)) (h2 : ∀ j : ℕ, j < i → pow2 ((j : ℤ) - 125) ≤ v) :
    encodef32 (if s' = 1 then -v else v) =
      encWord (s' * 2 ^ 31) i (rhe (v * pow2 (149 - (i : ℤ)))) := by
  obtain ⟨habs, hneg, hne⟩ := signed_val s' v hv
  rw [encodef32_eval _ hne i hi (by rw [habs]; exact h1)
    (fun j hj => by rw [habs]; exact not_lt.mpr (h2 j hj))]
  rw [habs]
  by_cases h : s' = 1
  · rw [if_pos (hneg.mpr h), h, one_mul]
  · rw [if_neg (fun hlt => h (hneg.mp hlt))]
    congr 1
    omega

set_option maxRecDepth 8000 in
/-- Round trip at the word level: re-encoding the exact value of a
finite binary32 word reproduces the word, except that negative zero
re-encodes as positive zero (`canon32`). -/
theorem encode_decodef32 (w : ℕ) (hw : w < 2 ^ 32) (hfin : w / 2 ^ 23 % 2 ^ 8 ≠ 255) :
    encodef32 (decodef32 w) = some (canon32 w) := by
  have hde : decodef32 w =
      (if w / 2 ^ 31 % 2 = 1 then -(f32mag (w / 2 ^ 23 % 2 ^ 8) (w % 2 ^ 23))
       else f32mag (w / 2 ^ 23 % 2 ^ 8) (w % 2 ^ 23)) := rfl
  set s := w / 2 ^ 31 % 2 with hs
  set e := w / 2 ^ 23 % 2 ^ 8 with he
  set m := w % 2 ^ 23 with hm
  have hsplit : w = s * 2 ^ 31 + e * 2 ^ 23 + m := by omega
  have hs2 : s < 2 := by omega
  have he2 : e < 256 := by omega
  have hm2 : m < 2 ^ 23 := by omega
  by_cases he0 : e = 0
  · by_cases hm0 : m = 0
    · have hval : decodef32 w = 0 := by
        rw [hde, he0, hm0]
        simp [f32mag]
      rw [hval]
      have hcanon : canon32 w = 0 := by
        unfold canon32
        rw [if_pos (by omega : w % 2 ^ 31 = 0)]
      rw [hcanon]
      unfold encodef32
      rw [if_pos rfl]
    · -- subnormal value
      have hmagpos : (0 : ℚ) < (m : ℚ) * pow2 (-149) :=
        mul_pos (by exact_mod_cast Nat.pos_of_ne_zero hm0) (pow2_pos _)
      have hmag : f32mag e m = (m : ℚ) * pow2 (-149) := by rw [f32mag, if_pos he0]
      rw [hde, hmag]
      have hub : (m : ℚ) * pow2 (-149) < pow2 (((0 : ℕ) : ℤ) - 125) := by
        calc (m : ℚ) * pow2 (-149) < 2 ^ 23 * pow2 (-149) := by
              apply mul_lt_mul_of_pos_right _ (pow2_pos _)
              exact_mod_cast hm2
          _ = pow2 (-126) := by
              rw [← pow2_natCast 23, ← pow2_add]
              norm_num
          _ < pow2 (((0 : ℕ) : ℤ) - 125) := pow2_lt_pow2 (by norm_num)
      rw [encode_signed_mag s hs2 _ hmagpos 0 (by norm_num) hub
        (fun j hj => absurd hj (by omega))]
      have hmt : rhe ((m : ℚ) * pow2 (-149) * pow2 (149 - ((0 : ℕ) : ℤ))) = (m : ℤ) := by
        rw [mul_assoc, pow2_mul_pow2 _ _ (by norm_num), mul_one, rhe_natCast]
      rw [hmt]
      unfold encWord
      rw [if_pos (by exact_mod_cast hm2 : (m : ℤ) < 2 ^ 23)]
      have ht : Int.toNat (m : ℤ) = m := by omega
      rw [ht]
      have hcanon : canon32 w = w := by
        unfold canon32
        rw [if_neg (by omega : ¬ w % 2 ^ 31 = 0)]
      rw [hcanon]
      exact congrArg some (by omega)
  · -- normal value
    have he1 : 1 ≤ e := Nat.pos_of_ne_zero he0
    have he254 : e ≤ 254 := by omega
    have hcast : (((e - 1 : ℕ) : ℤ)) = (e : ℤ) - 1 := by omega
    have hmag : f32mag e m = ((m : ℚ) + 2 ^ 23) * pow2 ((e : ℤ) - 150) := by
      rw [f32mag, if_neg he0]
    have hmagpos : (0 : ℚ) < ((m : ℚ) + 2 ^ 23) * pow2 ((e : ℤ) - 150) :=
      mul_pos (by positivity) (pow2_pos _)
    rw [hde, hmag]
    have hub : ((m : ℚ) + 2 ^ 23) * pow2 ((e : ℤ) - 150) <
        pow2 (((e - 1 : ℕ) : ℤ) - 125) := by
      rw [hcast]
      have h24 : ((m : ℚ) + 2 ^ 23) < 2 ^ 24 := by
        have hmq : (m : ℚ) < 2 ^ 23 := by exact_mod_cast hm2
        have h2324 : (2 : ℚ) ^ 23 + 2 ^ 23 = 2 ^ 24 := by norm_num
        linarith
      calc ((m : ℚ) + 2 ^ 23) * pow2 ((e : ℤ) - 150) <
          2 ^ 24 * pow2 ((e : ℤ) - 150) := mul_lt_mul_of_pos_right h24 (pow2_pos _)
        _ = pow2 ((e : ℤ) - 126) := by
            rw [← pow2_natCast 24, ← pow2_add]
            congr 1
            ring
        _ ≤ pow2 ((e : ℤ) - 1 - 125) := pow2_le_pow2 (by omega)
    have hlb : ∀ j : ℕ, j < e - 1 →
        pow2 ((j : ℤ) - 125) ≤ ((m : ℚ) + 2 ^ 23) * pow2 ((e : ℤ) - 150) := by
      intro j hj
      calc pow2 ((j : ℤ) - 125) ≤ pow2 ((e : ℤ) - 127) := pow2_le_pow2 (by omega)
        _ = 2 ^ 23 * pow2 ((e : ℤ) - 150) := by
            rw [← pow2_natCast 23, ← pow2_add]
            congr 1
            ring
        _ ≤ ((m : ℚ) + 2 ^ 23) * pow2 ((e : ℤ) - 150) := by
            apply mul_le_mul_of_nonneg_right _ (le_of_lt (pow2_pos _))
            have hm0q : (0 : ℚ) ≤ (m : ℚ) := Nat.cast_nonneg m
            linarith
    rw [encode_signed_mag s hs2 _ hmagpos (e - 1) (by omega) hub hlb]
    have hmt : rhe (((m : ℚ) + 2 ^ 23) * pow2 ((e : ℤ) - 150) *
        pow2 (149 - ((e - 1 : ℕ) : ℤ))) = (m : ℤ) + 2 ^ 23 := by
      rw [hcast, mul_assoc, pow2_mul_pow2 _ _ (by ring), mul_one]
      have hcst : ((m : ℚ) + 2 ^ 23) = (((m + 2 ^ 23 : ℕ) : ℚ)) := by push_cast; ring
      rw [hcst, rhe_natCast]
      push_cast
      ring
    rw [hmt]
    unfold encWord
    rw [if_neg (by omega : ¬ ((m : ℤ) + 2 ^ 23 < 2 ^ 23)),
      if_pos (by omega : (m : ℤ) + 2 ^ 23 < 2 ^ 24)]
    have ht : Int.toNat ((m : ℤ) + 2 ^ 23 - 2 ^ 23) = m := by omega
    rw [ht]
    have hcanon : canon32 w = w := by
      unfold canon32
      rw [if_neg (by omega : ¬ w % 2 ^ 31 = 0)]
    rw [hcanon]
    exact congrArg some (by omega)

/-- The canonical word has the same decoded value: only negative zero is
re-pointed to positive zero. -/
theorem decode_canon32 (w : ℕ) (hw : w < 2 ^ 32) :
    decodef32 (canon32 w) = decodef32 w := by
  unfold canon32
  by_cases h : w % 2 ^ 31 = 0
  · rw [if_pos h]
    have hw2 : w = 0 ∨ w = 2 ^ 31 := by omega
    rcases hw2 with rfl | rfl
    · rfl
    · show decodef32 0 = decodef32 (2 ^ 31)
      have h0 : decodef32 0 = 0 := by
        unfold decodef32
        norm_num [f32mag]
      have h31 : decodef32 (2 ^ 31) = 0 := by
        unfold decodef32
        norm_num [f32mag]
      rw [h0, h31]
  · rw [if_neg h]

theorem le32enc_length (n : ℕ) : (le32enc n).length = 4 := rfl

theorem le16enc_length (n : ℕ) : (le16enc n).length = 2 := rfl

theorem le32dec_le32enc (n : ℕ) (h : n < 2 ^ 32) : le32dec (le32enc n) = n := by
  show n % 256 + 256 * (n / 256 % 256) + 65536 * (n / 65536 % 256) +
    16777216 * (n / 16777216 % 256) = n
  omega

theorem canon32_lt (w : ℕ) (h : w < 2 ^ 32) : canon32 w < 2 ^ 32 := by
  unfold canon32
  split_ifs <;> omega

theorem drop_block (bk rest : List ℕ) (n t : ℕ) (hbk : bk.length = n) :
    (bk ++ rest).drop (n + t) = rest.drop t := by
  subst hbk
  exact List.drop_append t

theorem take_block (bk rest : List ℕ) (n : ℕ) (hbk : bk.length = n) :
    (bk ++ rest).take n = bk := by
  subst hbk
  exact List.take_left bk rest

theorem flatten_extract (blocks : List (List ℕ)) (tail : List ℕ) :
    ∀ j, j < blocks.length → (∀ b ∈ blocks, b.length = 4) →
    ((List.foldr (· ++ ·) tail blocks).drop (4 * j)).take 4 = blocks.getD j [] := by
  induction blocks with
  | nil => intro j hj _; exact absurd hj (by simp)
  | cons b bs ih =>
    intro j hj hlen
    cases j with
    | zero =>
      show ((b ++ List.foldr (· ++ ·) tail bs).drop (4 * 0)).take 4 = _
      rw [Nat.mul_zero, List.drop_zero, take_block b _ 4 (hlen b (List.mem_cons_self _ _))]
      rfl
    | succ j' =>
      show ((b ++ List.foldr (· ++ ·) tail bs).drop (4 * (j' + 1))).take 4 = _
      rw [show 4 * (j' + 1) = 4 + 4 * j' by ring,
        drop_block b _ 4 (4 * j') (hlen b (List.mem_cons_self _ _))]
      have hj' : j' < bs.length := by
        simpa [Nat.succ_lt_succ_iff] using hj
      rw [ih j' hj' (fun x hx => hlen x (List.mem_cons_of_mem _ hx))]
      rfl

theorem packPoint?_eq (p : Point) (b0 b1 b2 : ℕ) (h0 : encodef32 p.x = some b0)
    (h1 : encodef32 p.y = some b1) (h2 : encodef32 p.z = some b2) :
    packPoint? p = some (le32enc b0 ++ le32enc b1 ++ le32enc b2) := by
  unfold packPoint?
  rw [h0, h1, h2]

theorem packPoint?_spec (p : Point) (v : List ℕ) (h : packPoint? p = some v) :
    ∃ b0 b1 b2, encodef32 p.x = some b0 ∧ encodef32 p.y = some b1 ∧
      encodef32 p.z = some b2 ∧ v = le32enc b0 ++ le32enc b1 ++ le32enc b2 := by
  unfold packPoint? at h
  cases h0 : encodef32 p.x <;> cases h1 : encodef32 p.y <;> cases h2 : encodef32 p.z <;>
    rw [h0, h1, h2] at h
  all_goals try exact Option.noConfusion h
  exact ⟨_, _, _, rfl, rfl, rfl, (Option.some.inj h).symm⟩

theorem packPoint?_length (p : Point) (v : List ℕ) (h : packPoint? p = some v) :
    v.length = 12 := by
  obtain ⟨b0, b1, b2, _, _, _, rfl⟩ := packPoint?_spec p v h
  simp [List.length_append, le32enc_length]

theorem record?_eq (f : Facet) (n : Point) (nb v0 v1 v2 : List ℕ)
    (hn : f.normal = .ok n) (hnb : packPoint? n = some nb) (h0 : packPoint? f.p0 = some v0)
    (h1 : packPoint? f.p1 = some v1) (h2 : packPoint? f.p2 = some v2) :
    f.record? = some (nb ++ v0 ++ v1 ++ v2 ++ le16enc (if f.colored then 63489 else 14185)) := by
  unfold Facet.record?
  rw [hn]
  simp only [recordFromNormal]
  rw [hnb, h0, h1, h2]

theorem record?_spec (f : Facet) (r : List ℕ) (h : f.record? = some r) :
    ∃ n nb v0 v1 v2, f.normal = .ok n ∧ packPoint? n = some nb ∧
      packPoint? f.p0 = some v0 ∧ packPoint? f.p1 = some v1 ∧ packPoint? f.p2 = some v2 ∧
      r = nb ++ v0 ++ v1 ++ v2 ++ le16enc (if f.colored then 63489 else 14185) := by
  unfold Facet.record? at h
  cases hn : f.normal with
  | ok n =>
    rw [hn] at h
    simp only [recordFromNormal] at h
    cases hnb : packPoint? n <;> cases h0 : packPoint? f.p0 <;> cases h1 : packPoint? f.p1 <;>
      cases h2 : packPoint? f.p2 <;> rw [hnb, h0, h1, h2] at h
    all_goals try exact Option.noConfusion h
    exact ⟨n, _, _, _, _, rfl, hnb, rfl, rfl, rfl, (Option.some.inj h).symm⟩
  | zeroDivisionError =>
    rw [hn] at h
    simp only [recordFromNormal] at h
    exact Option.noConfusion h
  | notExact =>
    rw [hn] at h
    simp only [recordFromNormal] at h
    exact Option.noConfusion h

theorem record?_length (f : Facet) (r : List ℕ) (h : f.record? = some r) :
    r.length = 50 := by
  obtain ⟨n, nb, v0, v1, v2, hn, hnb, h0, h1, h2, rfl⟩ := record?_spec f r h
  simp [List.length_append, packPoint?_length _ _ hnb, packPoint?_length _ _ h0,
    packPoint?_length _ _ h1, packPoint?_length _ _ h2, le16enc_length]

theorem recordsOf?_cons_eq (f : Facet) (fs : List Facet) (r : List ℕ) (rs : List (List ℕ))
    (hf : f.record? = some r) (hfs : recordsOf? fs = some rs) :
    recordsOf? (f :: fs) = some (r :: rs) := by
  unfold recordsOf?
  rw [hf, hfs]

theorem recordsOf?_spec : ∀ (fs : List Facet) (recs : List (List ℕ)),
    recordsOf? fs = some recs →
    recs.length = fs.length ∧
    ∀ i r, recs.get? i = some r → ∃ f, fs.get? i = some f ∧ f.record? = some r := by
  intro fs
  induction fs with
  | nil =>
    intro recs h
    obtain rfl : ([] : List (List ℕ)) = recs := Option.some.inj h
    refine ⟨rfl, ?_⟩
    intro i r hr
    simp at hr
  | cons f rest ih =>
    intro recs h
    unfold recordsOf? at h
    cases hr : f.record? <;> rw [hr] at h
    · exact Option.noConfusion h
    case some r0 =>
      cases hrs : recordsOf? rest <;> rw [hrs] at h
      · exact Option.noConfusion h
      case some rs0 =>
        obtain rfl : r0 :: rs0 = recs := Option.some.inj h
        obtain ⟨hlen, hmem⟩ := ih rs0 hrs
        refine ⟨by simp [hlen], ?_⟩
        intro i r hri
        cases i with
        | zero =>
          obtain rfl : r0 = r := by simpa using hri
          exact ⟨f, rfl, hr⟩
        | succ i' =>
          obtain ⟨f', hf', hr'⟩ := hmem i' r (by simpa using hri)
          exact ⟨f', by simpa using hf', hr'⟩

theorem save_spec (m : Stl) (out : List ℕ) (h : m.save_binary_stl = some out) :
    ∃ recs, recordsOf? m.facets = some recs ∧
      out = List.replicate 80 0 ++ le32enc m.facets.length ++ recs.flatten := by
  unfold Stl.save_binary_stl at h
  cases hr : recordsOf? m.facets <;> rw [hr] at h
  · exact Option.noConfusion h
  · exact ⟨_, rfl, (Option.some.inj h).symm⟩

theorem save_eq (m : Stl) (recs : List (List ℕ)) (h : recordsOf? m.facets = some recs) :
    m.save_binary_stl =
      some (List.replicate 80 0 ++ le32enc m.facets.length ++ recs.flatten) := by
  unfold Stl.save_binary_stl
  rw [h]

theorem parseFacets_flatten : ∀ chunks : List (List ℕ), (∀ c ∈ chunks, c.length = 50) →
    parseFacets chunks.flatten chunks.length = .ok (chunks.map decodeRecord) := by
  intro chunks
  induction chunks with
  | nil => intro _; rfl
  | cons c cs ih =>
    intro h
    have hc : c.length = 50 := h c (List.mem_cons_self _ _)
    show parseFacets ((c :: cs).flatten) (cs.length + 1) = _
    rw [List.flatten_cons]
    simp only [parseFacets]
    rw [take_block c _ 50 hc, if_neg (by rw [hc]; norm_num)]
    have hd : (c ++ cs.flatten).drop 50 = cs.flatten := by
      have h0 := drop_block c cs.flatten 50 0 hc
      simpa using h0
    rw [hd, ih (fun x hx => h x (List.mem_cons_of_mem _ hx))]
    rfl

theorem parse_wellformed (header cnt : List ℕ) (chunks : List (List ℕ))
    (hh : header.length = 80) (hc : cnt.length = 4)
    (hch : ∀ c ∈ chunks, c.length = 50) (hN : le32dec cnt = chunks.length) :
    parse_binary_stl (header ++ (cnt ++ chunks.flatten)) = .ok (chunks.map decodeRecord) := by
  unfold parse_binary_stl
  have hdrop : (header ++ (cnt ++ chunks.flatten)).drop 80 = cnt ++ chunks.flatten := by
    have h0 := drop_block header (cnt ++ chunks.flatten) 80 0 hh
    simpa using h0
  rw [hdrop, take_block cnt _ 4 hc, if_neg (by rw [hc]; norm_num),
    if_neg (by rw [hc]; norm_num)]
  have hdrop4 : (cnt ++ chunks.flatten).drop 4 = chunks.flatten := by
    have h0 := drop_block cnt chunks.flatten 4 0 hc
    simpa using h0
  rw [hdrop4, hN, parseFacets_flatten chunks hch]

theorem encode_field (w : ℕ) (hfinw : isFinite32 w) (b : ℕ)
    (hb : encodef32 (decodef32 w) = some b) : b = canon32 w :=
  (Option.some.inj ((encode_decodef32 w hfinw.1 hfinw.2).symm.trans hb)).symm

theorem get?_getD {α : Type} (l : List α) : ∀ (i : ℕ), i < l.length → ∀ d : α,
    l.get? i = some (l.getD i d) := by
  induction l with
  | nil => intro i h d; exact absurd h (by simp)
  | cons a t ih =>
    intro i h d
    cases i with
    | zero => rfl
    | succ j => exact ih j (by simpa using h) d

theorem mem_of_get? {α : Type} (l : List α) : ∀ (i : ℕ) (a : α), l.get? i = some a → a ∈ l := by
  induction l with
  | nil => intro i a h; cases i <;> exact Option.noConfusion h
  | cons x t ih =>
    intro i a h
    cases i with
    | zero =>
      obtain rfl := Option.some.inj h
      exact List.mem_cons_self x t
    | succ j => exact List.mem_cons_of_mem x (ih j a h)

theorem get?_lt_of_some {α : Type} (l : List α) : ∀ (i : ℕ) (a : α),
    l.get? i = some a → i < l.length := by
  induction l with
  | nil => intro i a h; cases i <;> exact Option.noConfusion h
  | cons x t ih =>
    intro i a h
    cases i with
    | zero => exact Nat.succ_pos t.length
    | succ j => exact Nat.succ_lt_succ (ih j a h)

theorem exists_get?_of_mem {α : Type} (l : List α) : ∀ a : α, a ∈ l →
    ∃ i, l.get? i = some a := by
  induction l with
  | nil => intro a h; cases h
  | cons x t ih =>
    intro a h
    rcases List.mem_cons.mp h with h1 | h2
    · subst h1
      exact ⟨0, rfl⟩
    · obtain ⟨i, hi⟩ := ih a h2
      exact ⟨i + 1, hi⟩

theorem get?_map_decode (chunks : List (List ℕ)) : ∀ i,
    (chunks.map decodeRecord).get? i = (chunks.get? i).map decodeRecord := by
  induction chunks with
  | nil => intro i; cases i <;> rfl
  | cons c cs ih =>
    intro i
    cases i with
    | zero => rfl
    | succ j => exact ih j

theorem flatten_length_const (recs : List (List ℕ)) (h : ∀ r ∈ recs, r.length = 50) :
    recs.flatten.length = 50 * recs.length := by
  induction recs with
  | nil => rfl
  | cons r t ih =>
    rw [List.flatten_cons, List.length_append, ih (fun x hx => h x (List.mem_cons_of_mem _ hx)),
      h r (List.mem_cons_self _ _), List.length_cons]
    omega

theorem assoc9 (nb A B C D E F G H I color : List ℕ) :
    nb ++ (A ++ B ++ C) ++ (D ++ E ++ F) ++ (G ++ H ++ I) ++ color =
    nb ++ List.foldr (· ++ ·) color [A, B, C, D, E, F, G, H, I] := by
  simp [List.append_assoc, List.foldr_cons, List.foldr_nil]

theorem save_eq_none (m : Stl) (h : recordsOf? m.facets = none) :
    m.save_binary_stl = none := by
  unfold Stl.save_binary_stl
  rw [h]

/-- The vertex area of a record built by `Facet.record?` from a decoded
record: the record is 50 bytes, and bytes 12..47 hold the canonical
re-encodings of the input's nine vertex words. -/
theorem record_fields (c r : List ℕ)
    (hfin : ∀ j, j < 9 → isFinite32 (vertexWord c j))
    (hr : (decodeRecord c).record? = some r) :
    r.length = 50 ∧
    ∀ j, j < 9 → (r.drop (12 + 4 * j)).take 4 = le32enc (canon32 (vertexWord c j)) := by
  obtain ⟨n, nb, v0, v1, v2, hn, hnb, h0, h1, h2, hreq⟩ := record?_spec _ _ hr
  obtain ⟨b0, b1, b2, e0, e1, e2, hv0⟩ := packPoint?_spec _ _ h0
  obtain ⟨b3, b4, b5, e3, e4, e5, hv1⟩ := packPoint?_spec _ _ h1
  obtain ⟨b6, b7, b8, e6, e7, e8, hv2⟩ := packPoint?_spec _ _ h2
  have hb0 : b0 = canon32 (vertexWord c 0) := encode_field _ (hfin 0 (by norm_num)) _ e0
  have hb1 : b1 = canon32 (vertexWord c 1) := encode_field _ (hfin 1 (by norm_num)) _ e1
  have hb2 : b2 = canon32 (vertexWord c 2) := encode_field _ (hfin 2 (by norm_num)) _ e2
  have hb3 : b3 = canon32 (vertexWord c 3) := encode_field _ (hfin 3 (by norm_num)) _ e3
  have hb4 : b4 = canon32 (vertexWord c 4) := encode_field _ (hfin 4 (by norm_num)) _ e4
  have hb5 : b5 = canon32 (vertexWord c 5) := encode_field _ (hfin 5 (by norm_num)) _ e5
  have hb6 : b6 = canon32 (vertexWord c 6) := encode_field _ (hfin 6 (by norm_num)) _ e6
  have hb7 : b7 = canon32 (vertexWord c 7) := encode_field _ (hfin 7 (by norm_num)) _ e7
  have hb8 : b8 = canon32 (vertexWord c 8) := encode_field _ (hfin 8 (by norm_num)) _ e8
  subst hb0 hb1 hb2 hb3 hb4 hb5 hb6 hb7 hb8
  subst hv0 hv1 hv2
  subst hreq
  have hnb12 : nb.length = 12 := packPoint?_length _ _ hnb
  constructor
  · simp only [List.length_append, hnb12, le32enc_length, le16enc_length]
  · intro j hj
    rw [assoc9, show 12 + 4 * j = nb.length + 4 * j by rw [hnb12], List.drop_append]
    have hfe := flatten_extract
      [le32enc (canon32 (vertexWord c 0)), le32enc (canon32 (vertexWord c 1)),
       le32enc (canon32 (vertexWord c 2)), le32enc (canon32 (vertexWord c 3)),
       le32enc (canon32 (vertexWord c 4)), le32enc (canon32 (vertexWord c 5)),
       le32enc (canon32 (vertexWord c 6)), le32enc (canon32 (vertexWord c 7)),
       le32enc (canon32 (vertexWord c 8))]
      (le16enc (if (decodeRecord c).colored then 63489 else 14185))
      j (by simpa using hj) (by intro b hb; fin_cases hb <;> rfl)
    rw [hfe]
    interval_cases j <;> rfl

theorem decodef32_zero : decodef32 0 = 0 := by
  unfold decodef32
  norm_num [f32mag]

theorem decodef32_min : decodef32 1 = pow2 (-149) := by
  unfold decodef32
  norm_num [f32mag]

theorem decodef32_one : decodef32 1065353216 = 1 := by
  unfold decodef32
  rw [if_neg (by norm_num : ¬ (1065353216 : ℕ) / 2 ^ 31 % 2 = 1)]
  unfold f32mag
  rw [if_neg (by norm_num : ¬ (1065353216 : ℕ) / 2 ^ 23 % 2 ^ 8 = 0),
    show (1065353216 : ℕ) % 2 ^ 23 = 0 by norm_num,
    show (1065353216 : ℕ) / 2 ^ 23 % 2 ^ 8 = 127 by norm_num]
  rw [show (((127 : ℕ) : ℤ) - 150) = -((23 : ℕ) : ℤ) by norm_num]
  unfold pow2
  rw [zpow_neg, zpow_natCast]
  norm_num

theorem encodef32_zero : encodef32 0 = some 0 := by
  unfold encodef32
  rw [if_pos rfl]

theorem encodef32_min : encodef32 (pow2 (-149)) = some 1 := by
  have h := encode_decodef32 1 (by norm_num) (by norm_num)
  rw [decodef32_min] at h
  exact h.trans rfl

theorem encodef32_one : encodef32 1 = some 1065353216 := by
  have h := encode_decodef32 1065353216 (by norm_num) (by norm_num)
  rw [decodef32_one] at h
  exact h.trans rfl

/-- The normal of the right triangle (0,0,0), (h,0,0), (0,h,0) scaled by
any positive `h` is (0,0,1): its cross product is (0, 0, h²/3). -/
theorem normal_right_scaled (h : ℚ) (hp : 0 < h) (b : Bool) :
    Facet.normal ⟨⟨0, 0, 0⟩, ⟨h, 0, 0⟩, ⟨0, h, 0⟩, b⟩ = NormalOutcome.ok ⟨0, 0, 1⟩ := by
  have hc : Facet.normalCross ⟨⟨0, 0, 0⟩, ⟨h, 0, 0⟩, ⟨0, h, 0⟩, b⟩ = ⟨0, 0, h * h / 3⟩ := by
    rw [normalCross_eq_specCross]
    unfold specCross specCenter
    simp only [Point.sub_def, Point.mk.injEq]
    refine ⟨?_, ?_, ?_⟩ <;> ring
  have hne : h * h / 3 ≠ 0 := by positivity
  have hn := normal_of_norm ⟨⟨0, 0, 0⟩, ⟨h, 0, 0⟩, ⟨0, h, 0⟩, b⟩ (h * h / 3) (by positivity) hne
    (by rw [hc]; unfold Point.scalar_product; ring)
  rw [hc] at hn
  rw [hn]
  simp [div_self hne]

theorem degenerate_record_none : degenerateFacet.record? = none := by
  unfold Facet.record?
  rw [normal_of_cross_zero degenerateFacet (by
    unfold Facet.normalCross degenerateFacet Point.div?
    norm_num)]
  rfl

theorem c3Chunk_decode : decodeRecord c3Chunk =
    ⟨⟨0, 0, 0⟩, ⟨pow2 (-149), 0, 0⟩, ⟨0, pow2 (-149), 0⟩, false⟩ := by
  rw [show decodeRecord c3Chunk =
      ⟨⟨decodef32 0, decodef32 0, decodef32 0⟩, ⟨decodef32 1, decodef32 0, decodef32 0⟩,
       ⟨decodef32 0, decodef32 1, decodef32 0⟩, false⟩ from rfl,
    decodef32_zero, decodef32_min]

theorem packZeroPoint : packPoint? (Point.mk 0 0 0) =
    some (le32enc 0 ++ le32enc 0 ++ le32enc 0) :=
  packPoint?_eq _ 0 0 0 encodef32_zero encodef32_zero encodef32_zero

theorem packNormalPoint : packPoint? (Point.mk 0 0 1) =
    some (le32enc 0 ++ le32enc 0 ++ le32enc 1065353216) :=
  packPoint?_eq _ 0 0 1065353216 encodef32_zero encodef32_zero encodef32_one

theorem packMinX : packPoint? (Point.mk (pow2 (-149)) 0 0) =
    some (le32enc 1 ++ le32enc 0 ++ le32enc 0) :=
  packPoint?_eq _ 1 0 0 encodef32_min encodef32_zero encodef32_zero

theorem packMinY : packPoint? (Point.mk 0 (pow2 (-149)) 0) =
    some (le32enc 0 ++ le32enc 1 ++ le32enc 0) :=
  packPoint?_eq _ 0 1 0 encodef32_zero encodef32_min encodef32_zero

theorem c3RecordEval : (decodeRecord c3Chunk).record? = some c3OutRecord := by
  rw [c3Chunk_decode]
  have h := record?_eq ⟨⟨0, 0, 0⟩, ⟨pow2 (-149), 0, 0⟩, ⟨0, pow2 (-149), 0⟩, false⟩ ⟨0, 0, 1⟩
    _ _ _ _ (normal_right_scaled (pow2 (-149)) (pow2_pos _) false)
    packNormalPoint packZeroPoint packMinX packMinY
  rw [h]
  rfl

theorem c3SaveEval : Stl.save_binary_stl ⟨[c3Chunk].map decodeRecord⟩ =
    some (List.replicate 80 0 ++ le32enc 1 ++ [c3OutRecord].flatten) :=
  save_eq ⟨[decodeRecord c3Chunk]⟩ [c3OutRecord]
    (recordsOf?_cons_eq _ [] _ [] c3RecordEval rfl)

theorem c7RecordEval : c7Facet.record? = some c7Record := by
  have h := record?_eq c7Facet ⟨0, 0, 1⟩ _ _ _ _
    (normal_right_scaled (pow2 (-149)) (pow2_pos _) true)
    packNormalPoint packZeroPoint packMinX packMinY
  rw [h]
  rfl

theorem c7SaveEval : Stl.save_binary_stl ⟨[c7Facet]⟩ =
    some (List.replicate 80 0 ++ le32enc 1 ++ [c7Record].flatten) :=
  save_eq ⟨[c7Facet]⟩ [c7Record] (recordsOf?_cons_eq _ [] _ [] c7RecordEval rfl)

/-- C3 (amended): for every well-formed stream (80-byte header, 4-byte
count matching the number of 50-byte records) whose vertex fields are all
finite binary32 patterns, and provided re-encoding the decoded mesh
raises no exception, the round trip reproduces the facet count and, per
facet in order, vertex words equal to the input's up to the sign of zero
(`canon32`), hence exactly the same nine decoded vertex values; only the
header, the normal fields and the 2-byte attribute may otherwise differ.
The proviso is necessary: a degenerate facet makes the save raise. -/
theorem c3_roundtrip (header cnt : List ℕ) (chunks : List (List ℕ)) (out : List ℕ)
    (hh : header.length = 80) (hc : cnt.length = 4)
    (hch : ∀ c ∈ chunks, c.length = 50)
    (hN : le32dec cnt = chunks.length)
    (hfin : ∀ c ∈ chunks, ∀ j, j < 9 → isFinite32 (vertexWord c j))
    (hsave : Stl.save_binary_stl ⟨chunks.map decodeRecord⟩ = some out) :
    parse_binary_stl (header ++ (cnt ++ chunks.flatten)) = .ok (chunks.map decodeRecord) ∧
    ∃ recs, recordsOf? (chunks.map decodeRecord) = some recs ∧
      recs.length = chunks.length ∧
      out = List.replicate 80 0 ++ le32enc chunks.length ++ recs.flatten ∧
      ∀ i, i < chunks.length → ∀ j, j < 9 →
        (recs.getD i []).length = 50 ∧
        vertexWord (recs.getD i []) j = canon32 (vertexWord (chunks.getD i []) j) ∧
        decodef32 (vertexWord (recs.getD i []) j) =
          decodef32 (vertexWord (chunks.getD i []) j) := by
  refine ⟨parse_wellformed header cnt chunks hh hc hch hN, ?_⟩
  obtain ⟨recs, hrecs, hout⟩ := save_spec _ _ hsave
  obtain ⟨hlen, hmem⟩ := recordsOf?_spec _ _ hrecs
  have hlen' : recs.length = chunks.length := hlen.trans (List.length_map chunks decodeRecord)
  refine ⟨recs, hrecs, hlen', ?_, ?_⟩
  · exact hout.trans (by
      rw [show (Stl.mk (chunks.map decodeRecord)).facets.length = chunks.length from
        List.length_map chunks decodeRecord])
  · intro i hi j hj
    have hi' : i < recs.length := by rw [hlen']; exact hi
    have hgr : recs.get? i = some (recs.getD i []) := get?_getD recs i hi' []
    obtain ⟨f, hf, hrec⟩ := hmem i _ hgr
    rw [get?_map_decode, get?_getD chunks i hi []] at hf
    obtain rfl : f = decodeRecord (chunks.getD i []) := (Option.some.inj hf).symm
    have hcmem : chunks.getD i [] ∈ chunks :=
      mem_of_get? chunks i _ (get?_getD chunks i hi [])
    obtain ⟨hrl, hfields⟩ := record_fields (chunks.getD i []) (recs.getD i [])
      (hfin _ hcmem) hrec
    have hw : isFinite32 (vertexWord (chunks.getD i []) j) := hfin _ hcmem j hj
    refine ⟨hrl, ?_, ?_⟩
    · show le32dec (((recs.getD i []).drop (12 + 4 * j)).take 4) =
        canon32 (vertexWord (chunks.getD i []) j)
      rw [hfields j hj, le32dec_le32enc _ (canon32_lt _ hw.1)]
    · show decodef32 (le32dec (((recs.getD i []).drop (12 + 4 * j)).take 4)) =
        decodef32 (vertexWord (chunks.getD i []) j)
      rw [hfields j hj, le32dec_le32enc _ (canon32_lt _ hw.1), decode_canon32 _ hw.1]

/-- C3 counterexample: the well-formed all-zero one-facet stream parses
to a degenerate triangle, but re-encoding the decoded mesh raises a
`ZeroDivisionError` in the normal computation instead of reproducing the
stream: the round trip does not hold for every well-formed input. -/
theorem c3_counterexample :
    parse_binary_stl degenerateStream = Except.ok [degenerateFacet] ∧
    Stl.save_binary_stl ⟨[degenerateFacet]⟩ = none := by
  constructor
  · have hp := parse_wellformed (List.replicate 80 0) [1, 0, 0, 0] [List.replicate 50 0]
      rfl rfl (by intro c hc; rw [List.mem_singleton] at hc; subst hc; rfl) rfl
    have hs : degenerateStream =
        List.replicate 80 0 ++ ([1, 0, 0, 0] ++ ([List.replicate 50 0]).flatten) := by rfl
    rw [hs, hp]
    show Except.ok [decodeRecord (List.replicate 50 0)] = Except.ok [degenerateFacet]
    rw [show decodeRecord (List.replicate 50 0) =
        ⟨⟨decodef32 0, decodef32 0, decodef32 0⟩, ⟨decodef32 0, decodef32 0, decodef32 0⟩,
         ⟨decodef32 0, decodef32 0, decodef32 0⟩, false⟩ from rfl, decodef32_zero]
    rfl
  · apply save_eq_none
    show recordsOf? [degenerateFacet] = none
    unfold recordsOf?
    rw [degenerate_record_none]

/-- Witness for C3 on a one-facet stream holding a tiny right triangle
whose coordinates and recomputed normal all encode exactly. -/
theorem c3_witness :
    ((List.replicate 80 0 : List ℕ).length = 80 ∧ ([1, 0, 0, 0] : List ℕ).length = 4 ∧
     (∀ c ∈ [c3Chunk], c.length = 50) ∧ le32dec [1, 0, 0, 0] = [c3Chunk].length ∧
     (∀ c ∈ [c3Chunk], ∀ j, j < 9 → isFinite32 (vertexWord c j))) ∧
    (parse_binary_stl (List.replicate 80 0 ++ ([1, 0, 0, 0] ++ [c3Chunk].flatten)) =
        Except.ok ([c3Chunk].map decodeRecord) ∧
     ∃ recs, recordsOf? ([c3Chunk].map decodeRecord) = some recs ∧
       recs.length = [c3Chunk].length ∧
       List.replicate 80 0 ++ le32enc 1 ++ [c3OutRecord].flatten =
         List.replicate 80 0 ++ le32enc ([c3Chunk].length) ++ recs.flatten ∧
       ∀ i, i < [c3Chunk].length → ∀ j, j < 9 →
         (recs.getD i []).length = 50 ∧
         vertexWord (recs.getD i []) j = canon32 (vertexWord ([c3Chunk].getD i []) j) ∧
         decodef32 (vertexWord (recs.getD i []) j) =
           decodef32 (vertexWord ([c3Chunk].getD i []) j)) :=
  ⟨⟨rfl, rfl, by decide, by decide, by decide⟩,
   c3_roundtrip (List.replicate 80 0) [1, 0, 0, 0] [c3Chunk]
     (List.replicate 80 0 ++ le32enc 1 ++ [c3OutRecord].flatten)
     rfl rfl (by decide) (by decide) (by decide) c3SaveEval⟩

/-- C7 (amended): whenever saving a mesh returns output at all, that
output is exactly an all-zero 80-byte header, the 4-byte facet count,
and per facet in order a 50-byte record holding the recomputed normal,
the three packed vertices in winding order and the 2-byte attribute
63489 when the facet is colored and 14185 otherwise, for a total length
of 84 + 50·N bytes.  The proviso is necessary: a facet whose normal
computation or packing raises yields no (complete) output at all. -/
theorem c7_encode_layout (m : Stl) (out : List ℕ)
    (hsave : m.save_binary_stl = some out) :
    ∃ recs, recordsOf? m.facets = some recs ∧
      recs.length = m.facets.length ∧
      out = List.replicate 80 0 ++ le32enc m.facets.length ++ recs.flatten ∧
      out.length = 84 + 50 * m.facets.length ∧
      ∀ i f, m.facets.get? i = some f →
        ∃ n nb v0 v1 v2,
          recs.get? i = some (nb ++ v0 ++ v1 ++ v2 ++
            le16enc (if f.colored then 63489 else 14185)) ∧
          f.normal = NormalOutcome.ok n ∧
          packPoint? n = some nb ∧ packPoint? f.p0 = some v0 ∧
          packPoint? f.p1 = some v1 ∧ packPoint? f.p2 = some v2 ∧
          (nb ++ v0 ++ v1 ++ v2 ++ le16enc (if f.colored then 63489 else 14185)).length = 50 := by
  obtain ⟨recs, hrecs, hout⟩ := save_spec _ _ hsave
  obtain ⟨hlen, hmem⟩ := recordsOf?_spec _ _ hrecs
  have hall : ∀ r ∈ recs, r.length = 50 := by
    intro r hr
    obtain ⟨i, hgi⟩ := exists_get?_of_mem recs r hr
    obtain ⟨f, hf, hrec⟩ := hmem i r hgi
    exact record?_length f r hrec
  refine ⟨recs, hrecs, hlen, hout, ?_, ?_⟩
  · rw [hout, List.length_append, List.length_append, List.length_replicate, le32enc_length,
      flatten_length_const recs hall, hlen]
  · intro i f hf
    have hi : i < recs.length := by rw [hlen]; exact get?_lt_of_some _ i f hf
    have hgr : recs.get? i = some (recs.getD i []) := get?_getD recs i hi []
    obtain ⟨f', hf', hrec⟩ := hmem i _ hgr
    obtain rfl : f' = f := Option.some.inj (hf'.symm.trans hf)
    obtain ⟨n, nb, v0, v1, v2, hn, hnb, h0, h1, h2, hreq⟩ := record?_spec _ _ hrec
    refine ⟨n, nb, v0, v1, v2, ?_, hn, hnb, h0, h1, h2, ?_⟩
    · rw [hgr, hreq]
    · rw [← hreq]
      exact record?_length _ _ hrec

/-- C7 counterexample: a mesh holding a degenerate facet produces no
output at all when saved — the normal computation raises, so the encoder
does not emit the 84 + 50·N byte layout for every mesh (the real program
dies mid-write, leaving a truncated file). -/
theorem c7_counterexample :
    Stl.save_binary_stl ⟨[degenerateFacet, rightTriangleFacet]⟩ = none := by
  apply save_eq_none
  show recordsOf? [degenerateFacet, rightTriangleFacet] = none
  unfold recordsOf?
  rw [degenerate_record_none]

/-- Witness for C7 on the one-facet mesh holding a tiny colored right
triangle: the saved stream is the 80-byte zero header, count 1, and a
50-byte record colored 63489. -/
theorem c7_witness :
    (Stl.save_binary_stl ⟨[c7Facet]⟩ =
       some (List.replicate 80 0 ++ le32enc 1 ++ [c7Record].flatten)) ∧
    (∃ recs, recordsOf? [c7Facet] = some recs ∧
      recs.length = ([c7Facet] : List Facet).length ∧
      List.replicate 80 0 ++ le32enc 1 ++ [c7Record].flatten =
        List.replicate 80 0 ++ le32enc ([c7Facet] : List Facet).length ++ recs.flatten ∧
      (List.replicate 80 0 ++ le32enc 1 ++ [c7Record].flatten).length =
        84 + 50 * ([c7Facet] : List Facet).length ∧
      ∀ i f, ([c7Facet] : List Facet).get? i = some f →
        ∃ n nb v0 v1 v2,
          recs.get? i = some (nb ++ v0 ++ v1 ++ v2 ++
            le16enc (if f.colored then 63489 else 14185)) ∧
          f.normal = NormalOutcome.ok n ∧
          packPoint? n = some nb ∧ packPoint? f.p0 = some v0 ∧
          packPoint? f.p1 = some v1 ∧ packPoint? f.p2 = some v2 ∧
          (nb ++ v0 ++ v1 ++ v2 ++
            le16enc (if f.colored then 63489 else 14185)).length = 50) :=
  ⟨c7SaveEval, c7_encode_layout ⟨[c7Facet]⟩ _ c7SaveEval⟩

end ZodFilter
